import Mathlib

/-!
Verification development for the content-intelligence repository.

This file gives a shallow embedding of the core algorithmic pieces of the
repository — the token-budgeted chunker (`src/ingestion/chunk.py`), the
document aggregator and cluster engine (`src/analysis/clustering.py`), the
response parser for the labeling service (`src/analysis/clustering.py`),
and the similarity retrieval path (`src/analysis/linking.py` /
`src/db/client.py`) — and proves properties of them.

Text is modelled as `List Char`.  Python `str.strip()` / `str.split()` and
the regular expressions used by the chunker are translated explicitly; the
whitespace class is the ASCII part of Python's (the repository's inputs are
ordinary markdown, and nothing in the claims depends on non-ASCII
whitespace).
-/

/-- ASCII model of Python's whitespace class (`str.strip`, `\s`, `str.split()`):
space, tab, newline, carriage return, vertical tab, form feed. -/
def isPySpace (c : Char) : Bool :=
  c == ' ' || c == '\t' || c == '\n' || c == '\r' || c == '\x0b' || c == '\x0c'

/-- Python `str.strip()`: remove leading and trailing whitespace. -/
def stripC (s : List Char) : List Char :=
  ((s.dropWhile isPySpace).reverse.dropWhile isPySpace).reverse

/-- Python `str.split(sep)` for a one-character separator (used as
`markdown.split("\n")` in `split_by_headings`). -/
def splitOnChar (sep : Char) : List Char → List (List Char)
  | [] => [[]]
  | c :: cs =>
    match splitOnChar sep cs with
    | [] => [[c]]
    | g :: gs => if c = sep then [] :: g :: gs else (c :: g) :: gs

/-- `"\n".join` on pieces. -/
def joinNl (pieces : List (List Char)) : List Char :=
  List.intercalate ['\n'] pieces

/-- `"\n\n".join` on pieces. -/
def joinPP (pieces : List (List Char)) : List Char :=
  List.intercalate ['\n', '\n'] pieces

/-- Helper for `wordsC`: accumulates the current (reversed) in-progress word. -/
def wordsAux : List Char → List Char → List (List Char)
  | [], acc => if acc.isEmpty then [] else [acc.reverse]
  | c :: cs, acc =>
    if isPySpace c then
      if acc.isEmpty then wordsAux cs [] else acc.reverse :: wordsAux cs []
    else wordsAux cs (c :: acc)

/-- The maximal whitespace-separated runs of non-whitespace characters
(Python `str.split()` with no argument). -/
def wordsC (s : List Char) : List (List Char) :=
  wordsAux s []

/-- Model of the Tokenizer Adapter, `count_tokens` in `src/ingestion/chunk.py`.
The real implementation calls the external `tiktoken` library
(`cl100k_base`); the spec's non-goals state that only its deterministic
token-count semantics matter, so it is modelled as the number of maximal
whitespace-separated runs of the text. -/
def count_tokens (s : List Char) : Nat :=
  (wordsC s).length

/-- Model of `re.match(r"^(#{2,3})\s+(.+)$", line)` from `split_by_headings`:
a line matches iff it starts with exactly two or three `#`, followed by at
least one whitespace character and at least one further character; the
returned heading is `group(2).strip()`, which (accounting for the greedy
`\s+` with backtracking) equals the rest of the line after the hashes,
stripped. -/
def headingOf (line : List Char) : Option (List Char) :=
  let hashes := line.takeWhile (· = '#')
  let rest := line.dropWhile (· = '#')
  if (hashes.length == 2 || hashes.length == 3) && decide (2 ≤ rest.length)
      && rest.head?.any isPySpace then
    some (stripC rest)
  else none

/-- A section produced by `split_by_headings`: a dict
`{"heading": ..., "text": ...}`.  `heading` is `none` for Python `None`;
`some []` is Python's empty string (distinct from `None`, but equally falsy). -/
structure PSection where
  heading : Option (List Char)
  text : List Char
deriving DecidableEq, Repr

/-- The save-previous-section step of `split_by_headings`: if `current_lines`
is nonempty and joining it with newlines and stripping leaves text, emit one
section. -/
def saveSection (heading : Option (List Char)) (linesRev : List (List Char)) :
    List PSection :=
  if linesRev.isEmpty then []
  else
    let text := stripC (joinNl linesRev.reverse)
    if text.isEmpty then [] else [⟨heading, text⟩]

/-- The loop of `split_by_headings`, carrying `current_heading` and the
reversed `current_lines`. -/
def sbhAux : List (List Char) → Option (List Char) → List (List Char) →
    List PSection
  | [], heading, acc => saveSection heading acc
  | l :: ls, heading, acc =>
    match headingOf l with
    | some hd => saveSection heading acc ++ sbhAux ls (some hd) []
    | none => sbhAux ls heading (l :: acc)

/-- `split_by_headings` from `src/ingestion/chunk.py`: split markdown into
sections by h2/h3 headings. -/
def split_by_headings (markdown : List Char) : List PSection :=
  sbhAux (splitOnChar '\n' markdown) none []

/-- Model of `re.split(r"\n{2,}", text)`: split at each maximal run of two or
more newlines, scanning left to right.  The accumulator holds the current
piece reversed. -/
def splitParasAux : List Char → List Char → List (List Char)
  | [], acc => [acc.reverse]
  | '\n' :: '\n' :: rest2, acc =>
    acc.reverse :: splitParasAux (rest2.dropWhile (· = '\n')) []
  | c :: rest, acc => splitParasAux rest (c :: acc)
termination_by s _ => s.length
decreasing_by
  · simpa using Nat.lt_succ_of_lt
      (Nat.lt_succ_of_le ((List.dropWhile_sublist _).length_le))
  · simp

/-- `re.split(r"\n{2,}", text)` as used by `split_by_paragraphs`. -/
def splitParas (text : List Char) : List (List Char) :=
  splitParasAux text []

/-- The packing loop of `split_by_paragraphs`, carrying the reversed
`current` list and `current_tokens`. -/
def sbpAux (max_tokens : Nat) :
    List (List Char) → List (List Char) → Nat → List (List Char)
  | [], current, _ =>
    if current.isEmpty then [] else [joinPP current.reverse]
  | para :: paras, current, current_tokens =>
    let para_tokens := count_tokens para
    if current_tokens + para_tokens > max_tokens && !current.isEmpty then
      joinPP current.reverse :: sbpAux max_tokens paras [para] para_tokens
    else
      sbpAux max_tokens paras (para :: current) (current_tokens + para_tokens)

/-- `split_by_paragraphs` from `src/ingestion/chunk.py`: split a long text
into chunks by paragraph boundaries, greedily packing paragraphs up to
`max_tokens`. -/
def split_by_paragraphs (text : List Char) (max_tokens : Nat) :
    List (List Char) :=
  sbpAux max_tokens (splitParas text) [] 0

/-- The loop of `merge_small_sections`, carrying the running section
`merged[-1]`. -/
def msAux (threshold : Nat) (cur : PSection) : List PSection → List PSection
  | [] => [cur]
  | s :: rest =>
    let prev_tokens := count_tokens cur.text
    let curr_tokens := count_tokens s.text
    if prev_tokens + curr_tokens ≤ threshold then
      let heading :=
        match cur.heading with
        | none => s.heading
        | some [] => s.heading
        | some h => some h
      msAux threshold ⟨heading, cur.text ++ '\n' :: '\n' :: s.text⟩ rest
    else
      cur :: msAux threshold s rest

/-- `merge_small_sections` from `src/ingestion/chunk.py`: merge consecutive
small sections up to `threshold` tokens.  The kept heading follows Python's
truthiness test `if not merged[-1]["heading"]`: the running section's heading
is replaced by the next section's only when it is `None` or the empty
string. -/
def merge_small_sections (sections : List PSection) (threshold : Nat) :
    List PSection :=
  match sections with
  | [] => []
  | s :: rest => msAux threshold s rest

/-- One record of `chunk_article`'s output:
`{"chunk_index": ..., "chunk_text": ..., "heading": ..., "token_count": ...}`. -/
structure ChunkRec where
  chunk_index : Nat
  chunk_text : List Char
  heading : Option (List Char)
  token_count : Nat
deriving DecidableEq, Repr

/-- `MAX_CHUNK_TOKENS` from `src/config.py`. -/
def MAX_CHUNK_TOKENS : Nat := 1000

/-- `MERGE_THRESHOLD_TOKENS` from `src/config.py`. -/
def MERGE_THRESHOLD_TOKENS : Nat := 750

/-- `chunk_article` from `src/ingestion/chunk.py`: chunk an article into
pieces suitable for embedding. -/
def chunk_article (markdown : List Char) : List ChunkRec :=
  let sections := split_by_headings markdown
  let sections := if sections.isEmpty then [⟨none, markdown⟩] else sections
  let sections := merge_small_sections sections MERGE_THRESHOLD_TOKENS
  let final_chunks := sections.flatMap fun s =>
    if count_tokens s.text > MAX_CHUNK_TOKENS then
      (split_by_paragraphs s.text MAX_CHUNK_TOKENS).map
        fun sub => (⟨s.heading, sub⟩ : PSection)
    else [s]
  final_chunks.enum.filterMap fun p =>
    let text := stripC p.2.text
    if text.isEmpty then none
    else some ⟨p.1, text, p.2.heading, count_tokens text⟩

/-! ## Document aggregation and clustering (`src/analysis/clustering.py`) -/

/-- One chunk row as fetched for clustering (`get_all_chunk_embeddings`):
only the fields `compute_article_embeddings` reads.  Embeddings are vectors
of rationals (the numeric model of the store's float vectors). -/
structure ChunkEmb where
  article_id : Int
  embedding : List ℚ
deriving DecidableEq, Repr

/-- `_parse_embedding` from `src/analysis/clustering.py`: in this model
embeddings are already vectors, so the string/list/array normalisation is the
identity. -/
def _parse_embedding (emb : List ℚ) : List ℚ := emb

/-- Componentwise vector sum (for `np.mean(..., axis=0)` on equal-dimension
vectors). -/
def addVec (a b : List ℚ) : List ℚ := List.zipWith (· + ·) a b

/-- `np.mean(vs, axis=0)` on a nonempty list of equal-dimension vectors:
componentwise sum divided by the number of vectors. -/
def npMean (vs : List (List ℚ)) : List ℚ :=
  match vs with
  | [] => []
  | v :: rest => (rest.foldl addVec v).map (· / (vs.length : ℚ))

/-- The body of the first loop of `compute_article_embeddings`: append this
chunk's parsed embedding and the chunk itself to its article's entry,
creating the entry at the end on first sight (Python dicts preserve
insertion order). -/
def addChunkToMap (m : List (Int × List (List ℚ) × List ChunkEmb))
    (chunk : ChunkEmb) : List (Int × List (List ℚ) × List ChunkEmb) :=
  match m with
  | [] => [(chunk.article_id, [_parse_embedding chunk.embedding], [chunk])]
  | (aid, embs, chs) :: rest =>
    if aid = chunk.article_id then
      (aid, embs ++ [_parse_embedding chunk.embedding], chs ++ [chunk]) :: rest
    else
      (aid, embs, chs) :: addChunkToMap rest chunk

/-- `compute_article_embeddings` from `src/analysis/clustering.py`: compute
mean embeddings per article from chunk embeddings; returns, per article id in
first-occurrence order, the mean embedding and the article's chunks. -/
def compute_article_embeddings (chunks : List ChunkEmb) :
    List (Int × List ℚ × List ChunkEmb) :=
  let article_map := chunks.foldl addChunkToMap []
  article_map.map fun g => (g.1, npMean g.2.1, g.2.2)

/-- Squared Euclidean distance on equal-dimension vectors. -/
def sqDist (a b : List ℚ) : ℚ :=
  (List.zipWith (fun x y => (x - y) ^ 2) a b).sum

/-- Index of the centroid nearest to `x` (squared Euclidean distance, ties
broken toward the lowest index); `0` for an empty centroid list. -/
def nearestIdx (cents : List (List ℚ)) (x : List ℚ) : Nat :=
  match cents with
  | [] => 0
  | c :: rest =>
    (rest.enum.foldl
      (fun best p =>
        let d := sqDist p.2 x
        if d < best.2 then (p.1 + 1, d) else best)
      (0, sqDist c x)).1

/-- Assignment step: each point goes to its nearest centroid. -/
def assignStep (cents : List (List ℚ)) (pts : List (List ℚ)) : List Nat :=
  pts.map (nearestIdx cents)

/-- Update step: each centroid becomes the mean of its assigned points, and
keeps its old value when no point is assigned to it. -/
def updateStep (pts : List (List ℚ)) (labels : List Nat)
    (cents : List (List ℚ)) : List (List ℚ) :=
  (List.range cents.length).map fun i =>
    let assigned := (pts.zip labels).filterMap
      fun pl => if pl.2 = i then some pl.1 else none
    if assigned.isEmpty then cents.getD i [] else npMean assigned

/-- Modelled from the spec: the iterative centroid refinement of
`sklearn.cluster.KMeans(...).fit`, which is an external library not in the
repository.  Per spec §4.4: assign each document to the nearest centroid by
squared Euclidean distance, recompute each centroid as the mean of its
assigned documents, and repeat until the assignment stops changing or the
iteration budget is exhausted. -/
def lloyd (fuel : Nat) (cents : List (List ℚ)) (pts : List (List ℚ)) :
    List Nat × List (List ℚ) :=
  match fuel with
  | 0 => (assignStep cents pts, cents)
  | fuel + 1 =>
    let labels := assignStep cents pts
    let cents' := updateStep pts labels cents
    if assignStep cents' pts = labels then (labels, cents')
    else lloyd fuel cents' pts

/-- Modelled from the spec: `cluster_articles` from
`src/analysis/clustering.py` delegates to the external
`sklearn.cluster.KMeans(n_clusters, random_state=42, n_init=10)`.  The model
follows spec §4.4: requesting more clusters than documents (or a
non-positive cluster count) is a configuration error reported before any
centroid computation; otherwise the k initial centroids are seeded
deterministically (here: the first k document vectors) and refined by
`lloyd`.  Returns the per-article labels, the centroids and the article ids
in order, as the Python function does. -/
def cluster_articles (article_embeddings : List (Int × List ℚ))
    (n_clusters : Nat) :
    Except String (List (Int × Nat) × List (List ℚ) × List Int) :=
  let article_ids := article_embeddings.map Prod.fst
  let X := article_embeddings.map Prod.snd
  if n_clusters = 0 || X.length < n_clusters then
    Except.error "n_clusters must be between 1 and the number of documents"
  else
    let seed := X.take n_clusters
    let r := lloyd 300 seed X
    Except.ok (article_ids.zip r.1, r.2, article_ids)

/-! ## Label/gap response parsing (`_parse_cluster_response`) -/

/-- One value of the parsed response map: `{"label": ..., "gaps": [...]}`. -/
structure LabelGaps where
  label : List Char
  gaps : List (List Char)
deriving DecidableEq, Repr

/-- Python `line.replace("Label:", "")`: remove every (leftmost,
non-overlapping) occurrence of `Label:`. -/
def replaceLabel : List Char → List Char
  | 'L' :: 'a' :: 'b' :: 'e' :: 'l' :: ':' :: rest => replaceLabel rest
  | c :: rest => c :: replaceLabel rest
  | [] => []

/-- Python `int(token)` on a whitespace-free token (ASCII model): an optional
sign followed by one or more digits. -/
def parseDigits (ds : List Char) : Option Nat :=
  if !ds.isEmpty && ds.all (·.isDigit) then
    some (ds.foldl (fun n c => n * 10 + (c.toNat - 48)) 0)
  else none

/-- Python `int(token)` producing an `Int` (`None` models `ValueError`). -/
def parseIntToken (w : List Char) : Option Int :=
  match w with
  | '-' :: ds => (parseDigits ds).map fun n => -(n : Int)
  | '+' :: ds => (parseDigits ds).map fun n => (n : Int)
  | ds => (parseDigits ds).map fun n => (n : Int)

/-- `results.setdefault(cid, {"label": "", "gaps": []})`. -/
def setdefaultLG (m : List (Int × LabelGaps)) (cid : Int) :
    List (Int × LabelGaps) :=
  if (m.lookup cid).isSome then m else m ++ [(cid, ⟨[], []⟩)]

/-- `results[cid]["label"] = lab`. -/
def setLabelLG (m : List (Int × LabelGaps)) (cid : Int) (lab : List Char) :
    List (Int × LabelGaps) :=
  m.map fun e => if e.1 = cid then (e.1, ⟨lab, e.2.gaps⟩) else e

/-- `results[cid]["gaps"].append(g)`. -/
def addGapLG (m : List (Int × LabelGaps)) (cid : Int) (g : List Char) :
    List (Int × LabelGaps) :=
  m.map fun e => if e.1 = cid then (e.1, ⟨e.2.label, e.2.gaps ++ [g]⟩) else e

/-- One iteration of the line loop of `_parse_cluster_response`, on the state
`(results, current_id)`. -/
def parseLineStep (st : List (Int × LabelGaps) × Option Int)
    (rawLine : List Char) : List (Int × LabelGaps) × Option Int :=
  let line := stripC rawLine
  if "CLUSTER".data.isPrefixOf line then
    match (wordsC line).getLast? with
    | some w =>
      match parseIntToken w with
      | some n => (st.1, some n)
      | none => st
    | none => st
  else if "Label:".data.isPrefixOf line then
    match st.2 with
    | some cid =>
      (setLabelLG (setdefaultLG st.1 cid) cid (stripC (replaceLabel line)), st.2)
    | none => st
  else if ['-', ' '].isPrefixOf line then
    match st.2 with
    | some cid =>
      (addGapLG (setdefaultLG st.1 cid) cid (stripC (line.drop 2)), st.2)
    | none => st
  else st

/-- The placeholder entry `{"label": f"Topic {cid}", "gaps": []}` used for
clusters missing from the response. -/
def placeholderLG (cid : Int) : LabelGaps :=
  ⟨("Topic " ++ toString cid).data, []⟩

/-- `_parse_cluster_response` from `src/analysis/clustering.py`: parse the
labeling service's free-text response, then fill in any missing clusters
with a placeholder label and no gaps. -/
def _parse_cluster_response (text : List Char) (cluster_ids : List Int) :
    List (Int × LabelGaps) :=
  let st := (splitOnChar '\n' text).foldl parseLineStep ([], none)
  cluster_ids.foldl
    (fun m cid =>
      if (m.lookup cid).isSome then m else m ++ [(cid, placeholderLG cid)])
    st.1

/-! ## Similarity retrieval (`src/analysis/linking.py`, `src/db/client.py`) -/

/-- A candidate chunk as ranked by the store, carrying the cosine similarity
the store computed for the current query. -/
structure SChunk where
  article_id : Int
  chunk_index : Nat
  similarity : ℚ
deriving DecidableEq, Repr

/-- Ranking order of retrieval results per spec §4.2: descending similarity,
ties broken by ascending (document id, chunk index). -/
def chunkLe (a b : SChunk) : Bool :=
  decide (b.similarity < a.similarity ∨
    (a.similarity = b.similarity ∧
      (a.article_id < b.article_id ∨
        (a.article_id = b.article_id ∧ a.chunk_index ≤ b.chunk_index))))

/-- Modelled from the spec: `match_chunks` (`src/db/client.py`) calls the
`match_chunks` RPC, a SQL function that lives in the vector store and is not
part of the repository's files.  Per spec §4.2 it drops candidates belonging
to `exclude_article_id`, drops candidates with similarity strictly below
`similarity_threshold`, sorts descending by similarity with ties broken by
ascending (document id, chunk index), and truncates to `match_count`.  The
numeric computation of each candidate's cosine similarity happens inside the
store and is abstracted as the `similarity` field. -/
def match_chunks (candidates : List SChunk) (match_count : Nat)
    (similarity_threshold : ℚ) (exclude_article_id : Option Int) :
    List SChunk :=
  let kept := candidates.filter fun c =>
    (match exclude_article_id with
     | some e => decide (c.article_id ≠ e)
     | none => true) && decide (similarity_threshold ≤ c.similarity)
  (kept.mergeSort chunkLe).take match_count

/-- `find_similar_chunks` from `src/analysis/linking.py`: embed the input
text (external call, irrelevant to ranking) and return the store's matches
for it. -/
def find_similar_chunks (candidates : List SChunk) (match_count : Nat := 15)
    (similarity_threshold : ℚ := 0.5) (exclude_article_id : Option Int := none) :
    List SChunk :=
  match_chunks candidates match_count similarity_threshold exclude_article_id

/-! ## Derived notions used in the statements -/

/-- Collapse whitespace: the text's words joined by single spaces. Two texts
have the same content up to whitespace iff their collapses are equal. -/
def collapseWS (s : List Char) : List Char :=
  List.intercalate [' '] (wordsC s)

/-- The lines of `markdown` that are not h2/h3 heading lines. -/
def nonHeadingLines (markdown : List Char) : List (List Char) :=
  (splitOnChar '\n' markdown).filter fun l => (headingOf l).isNone

/-- Whether the text contains two consecutive newlines (i.e. an internal
paragraph boundary in the sense of `re.split(r"\n{2,}", ...)`). -/
def hasPP : List Char → Bool
  | c :: d :: rest => (c == '\n' && d == '\n') || hasPP (d :: rest)
  | _ => false

/-- `n` copies of the word `a` separated by single spaces (a text of exactly
`n` tokens under the tokenizer model). -/
def aWords : Nat → List Char
  | 0 => []
  | 1 => ['a']
  | n + 2 => 'a' :: ' ' :: aWords (n + 1)

/-- The failing input for the chunk-index contiguity claim: an oversized
headingless section whose middle paragraph is the single space, i.e.
1001 words, a blank line, a whitespace-only paragraph, a blank line, and
1001 words again. -/
def c2FailingInput : List Char :=
  aWords 1001 ++ '\n' :: '\n' :: ' ' :: '\n' :: '\n' :: aWords 1001

/-- Spec scenario A input: two headed sections of 200 and 100 tokens. -/
def scenarioAText : List Char :=
  ('#' :: '#' :: ' ' :: 'H' :: '1' :: '\n' :: aWords 200) ++
    ('\n' :: '#' :: '#' :: ' ' :: 'H' :: '2' :: '\n' :: aWords 100)

/-- The merge rule in the spec's words (with the heading rule as amended:
"keep whichever heading is truthy — non-null and non-empty — preferring the
earlier one"). -/
def keepHeadingSpec (earlier later : Option (List Char)) : Option (List Char) :=
  if earlier = none ∨ earlier = some [] then later else earlier

/-- One step of the spec's forward merge: fold state is (completed sections,
running section). -/
def mergeSpecStep (threshold : Nat) (st : List PSection × Option PSection)
    (next : PSection) : List PSection × Option PSection :=
  match st.2 with
  | none => (st.1, some next)
  | some run =>
    if count_tokens run.text + count_tokens next.text ≤ threshold then
      (st.1, some ⟨keepHeadingSpec run.heading next.heading,
        run.text ++ '\n' :: '\n' :: next.text⟩)
    else
      (st.1 ++ [run], some next)

/-- Spec §4.1 step 2, stated independently of the implementation: merge
adjacent sections forward, starting from the first. -/
def merge_spec (threshold : Nat) (sections : List PSection) : List PSection :=
  let st := sections.foldl (mergeSpecStep threshold) ([], none)
  st.1 ++ st.2.toList

/-- The chunks of `chunks` owned by article `aid`, in order. -/
def ownedChunks (chunks : List ChunkEmb) (aid : Int) : List ChunkEmb :=
  chunks.filter fun c => c.article_id = aid

/-! ## Whitespace and word toolbox -/

/-- Every character of `m` is whitespace. -/
def AllWS (m : List Char) : Prop := ∀ c ∈ m, isPySpace c = true

theorem wordsAux_ws (m : List Char) (hm : AllWS m) :
    ∀ acc, wordsAux m acc = if acc.isEmpty then [] else [acc.reverse] := by
  induction m with
  | nil => intro acc; simp [wordsAux]
  | cons c cs ih =>
    intro acc
    have hc : isPySpace c = true := hm c (List.mem_cons_self ..)
    have hcs : AllWS cs := fun d hd => hm d (List.mem_cons_of_mem _ hd)
    cases acc with
    | nil => simp [wordsAux, hc, ih hcs]
    | cons a as => simp [wordsAux, hc, ih hcs]

theorem wordsAux_ws_append (m : List Char) (hm : AllWS m) (hne : m ≠ [])
    (ys : List Char) :
    ∀ acc, wordsAux (m ++ ys) acc =
      (if acc.isEmpty then [] else [acc.reverse]) ++ wordsC ys := by
  induction m with
  | nil => exact absurd rfl hne
  | cons c cs ih =>
    intro acc
    have hc : isPySpace c = true := hm c (List.mem_cons_self ..)
    have hcs : AllWS cs := fun d hd => hm d (List.mem_cons_of_mem _ hd)
    cases hcase : cs with
    | nil =>
      cases acc with
      | nil => simp [wordsAux, hc, wordsC]
      | cons a as => simp [wordsAux, hc, wordsC]
    | cons d ds =>
      have hne' : cs ≠ [] := by simp [hcase]
      rw [← hcase]
      cases acc with
      | nil => simpa [wordsAux, hc] using ih hcs hne' []
      | cons a as => simpa [wordsAux, hc] using ih hcs hne' []

theorem wordsAux_split (m : List Char) (hm : AllWS m) (hne : m ≠ [])
    (ys xs : List Char) :
    ∀ acc, wordsAux (xs ++ m ++ ys) acc = wordsAux xs acc ++ wordsC ys := by
  induction xs with
  | nil =>
    intro acc
    simpa [wordsAux] using wordsAux_ws_append m hm hne ys acc
  | cons c cs ih =>
    intro acc
    by_cases hc : isPySpace c = true
    · cases acc with
      | nil => simpa [wordsAux, hc] using ih []
      | cons a as => simpa [wordsAux, hc] using ih []
    · simpa [wordsAux, hc] using ih (c :: acc)

theorem words_append_ws (m : List Char) (hm : AllWS m) (hne : m ≠ [])
    (xs ys : List Char) : wordsC (xs ++ m ++ ys) = wordsC xs ++ wordsC ys := by
  simpa [wordsC] using wordsAux_split m hm hne ys xs []

theorem words_ws_left (m : List Char) (hm : AllWS m) (ys : List Char) :
    wordsC (m ++ ys) = wordsC ys := by
  cases m with
  | nil => rfl
  | cons c cs =>
    simpa [wordsC, wordsAux] using
      wordsAux_ws_append (c :: cs) hm (by simp) ys []

theorem wordsAux_ws_right (m : List Char) (hm : AllWS m) (xs : List Char) :
    ∀ acc, wordsAux (xs ++ m) acc = wordsAux xs acc := by
  induction xs with
  | nil =>
    intro acc
    rw [List.nil_append, wordsAux_ws m hm acc]
    cases acc with
    | nil => simp [wordsAux]
    | cons a as => simp [wordsAux]
  | cons c cs ih =>
    intro acc
    by_cases hc : isPySpace c = true
    · cases acc with
      | nil => simpa [wordsAux, hc] using ih []
      | cons a as => simpa [wordsAux, hc] using ih []
    · simpa [wordsAux, hc] using ih (c :: acc)

theorem words_ws_right (m : List Char) (hm : AllWS m) (xs : List Char) :
    wordsC (xs ++ m) = wordsC xs := by
  simpa [wordsC] using wordsAux_ws_right m hm xs []

theorem words_all_ws (m : List Char) (hm : AllWS m) : wordsC m = [] := by
  simpa using words_ws_left m hm []

theorem mem_takeWhile_ws (l : List Char) : AllWS (l.takeWhile isPySpace) := by
  intro c hc
  exact List.mem_takeWhile_imp hc

theorem strip_decomp (s : List Char) :
    ∃ pre suf, AllWS pre ∧ AllWS suf ∧ s = pre ++ stripC s ++ suf := by
  refine ⟨s.takeWhile isPySpace,
    ((s.dropWhile isPySpace).reverse.takeWhile isPySpace).reverse, ?_, ?_, ?_⟩
  · exact mem_takeWhile_ws s
  · intro c hc
    rw [List.mem_reverse] at hc
    exact List.mem_takeWhile_imp hc
  · conv_lhs => rw [← List.takeWhile_append_dropWhile isPySpace s]
    rw [List.append_assoc]
    congr 1
    conv_lhs => rw [← List.reverse_reverse (s.dropWhile isPySpace),
      ← List.takeWhile_append_dropWhile isPySpace
        (s.dropWhile isPySpace).reverse]
    rw [List.reverse_append, stripC]

theorem words_stripC (s : List Char) : wordsC (stripC s) = wordsC s := by
  obtain ⟨pre, suf, hpre, hsuf, hs⟩ := strip_decomp s
  conv_rhs => rw [hs]
  rw [List.append_assoc, words_ws_left pre hpre, words_ws_right suf hsuf]

theorem count_stripC (s : List Char) : count_tokens (stripC s) = count_tokens s := by
  simp [count_tokens, words_stripC]

theorem words_of_strip_nil (s : List Char) (h : stripC s = []) : wordsC s = [] := by
  rw [← words_stripC, h]; rfl

theorem head_dropWhile_not (p : Char → Bool) (l : List Char) (c : Char)
    (h : (l.dropWhile p).head? = some c) : p c = false := by
  induction l with
  | nil => simp [List.dropWhile] at h
  | cons a as ih =>
    by_cases ha : p a
    · rw [List.dropWhile_cons_of_pos ha] at h; exact ih h
    · rw [List.dropWhile_cons_of_neg ha] at h
      simp at h
      subst h
      simpa using ha

theorem dropWhile_eq_self_of_head (p : Char → Bool) (l : List Char)
    (h : ∀ c, l.head? = some c → p c = false) : l.dropWhile p = l := by
  cases l with
  | nil => rfl
  | cons a as => rw [List.dropWhile_cons_of_neg (by simp [h a rfl])]

theorem getLast_dropWhile_not (p : Char → Bool) (l : List Char) (c : Char)
    (h : (l.dropWhile p).getLast? = some c) :
    ∃ d, l.getLast? = some d ∧ (p d = false ∨ d = c) := by
  obtain ⟨t, ht⟩ := @List.dropWhile_suffix _ l p
  have hne : l.dropWhile p ≠ [] := by
    intro hnil; rw [hnil] at h; simp at h
  refine ⟨c, ?_, Or.inr rfl⟩
  rw [← ht, List.getLast?_append_of_ne_nil t hne, h]

theorem stripC_getLast_not_ws (s : List Char) (c : Char)
    (h : (stripC s).getLast? = some c) : isPySpace c = false := by
  rw [stripC, List.getLast?_reverse] at h
  exact head_dropWhile_not isPySpace _ c h

theorem stripC_head_not_ws (s : List Char) (c : Char)
    (h : (stripC s).head? = some c) : isPySpace c = false := by
  rw [stripC, List.head?_reverse] at h
  have hne : (s.dropWhile isPySpace).reverse.dropWhile isPySpace ≠ [] := by
    intro hnil; rw [hnil] at h; simp at h
  obtain ⟨t, ht⟩ :=
    @List.dropWhile_suffix _ ((s.dropWhile isPySpace).reverse) isPySpace
  have hlast : (s.dropWhile isPySpace).reverse.getLast? = some c := by
    rw [← ht, List.getLast?_append_of_ne_nil t hne]; exact h
  rw [List.getLast?_reverse] at hlast
  exact head_dropWhile_not isPySpace s c hlast

theorem stripC_idem (s : List Char) : stripC (stripC s) = stripC s := by
  have hfront : (stripC s).dropWhile isPySpace = stripC s :=
    dropWhile_eq_self_of_head isPySpace _ fun c hc => stripC_head_not_ws s c hc
  have hback : (stripC s).reverse.dropWhile isPySpace = (stripC s).reverse := by
    refine dropWhile_eq_self_of_head isPySpace _ fun c hc => ?_
    rw [List.head?_reverse] at hc
    exact stripC_getLast_not_ws s c hc
  rw [stripC, hfront, hback, List.reverse_reverse]

theorem stripC_eq_self (s : List Char)
    (hh : ∀ c, s.head? = some c → isPySpace c = false)
    (hl : ∀ c, s.getLast? = some c → isPySpace c = false) : stripC s = s := by
  have hfront : s.dropWhile isPySpace = s := dropWhile_eq_self_of_head isPySpace s hh
  have hback : s.reverse.dropWhile isPySpace = s.reverse := by
    refine dropWhile_eq_self_of_head isPySpace _ fun c hc => ?_
    rw [List.head?_reverse] at hc
    exact hl c hc
  rw [stripC, hfront, hback, List.reverse_reverse]

theorem joinPP_nil : joinPP [] = [] := rfl

theorem joinPP_single (x : List Char) : joinPP [x] = x := by
  simp [joinPP, List.intercalate]

theorem joinPP_cons (x y : List Char) (l : List (List Char)) :
    joinPP (x :: y :: l) = x ++ '\n' :: '\n' :: joinPP (y :: l) := by
  simp [joinPP, List.intercalate, List.intersperse]

theorem joinNl_nil : joinNl [] = [] := rfl

theorem joinNl_single (x : List Char) : joinNl [x] = x := by
  simp [joinNl, List.intercalate]

theorem joinNl_cons (x y : List Char) (l : List (List Char)) :
    joinNl (x :: y :: l) = x ++ '\n' :: joinNl (y :: l) := by
  simp [joinNl, List.intercalate, List.intersperse]

theorem words_joinPP (pieces : List (List Char)) :
    wordsC (joinPP pieces) = (pieces.map wordsC).flatten := by
  induction pieces with
  | nil => rfl
  | cons x l ih =>
    cases l with
    | nil => simp [joinPP_single, wordsC]
    | cons y r =>
      rw [joinPP_cons, List.map_cons, List.flatten_cons, ← ih]
      have h2 := words_append_ws ['\n', '\n'] (by intro c hc; fin_cases hc <;> rfl) (by simp) x (joinPP (y :: r))
      simpa using h2

theorem words_joinNl (pieces : List (List Char)) :
    wordsC (joinNl pieces) = (pieces.map wordsC).flatten := by
  induction pieces with
  | nil => rfl
  | cons x l ih =>
    cases l with
    | nil => simp [joinNl_single, wordsC]
    | cons y r =>
      rw [joinNl_cons, List.map_cons, List.flatten_cons, ← ih]
      have h2 := words_append_ws ['\n'] (by intro c hc; fin_cases hc; rfl) (by simp) x (joinNl (y :: r))
      simpa using h2

theorem count_joinPP (pieces : List (List Char)) :
    count_tokens (joinPP pieces) = (pieces.map count_tokens).sum := by
  simp only [count_tokens, words_joinPP, List.length_flatten, List.map_map]
  rfl

theorem joinPP_append_single (l : List (List Char)) (x : List Char) (hl : l ≠ []) :
    joinPP (l ++ [x]) = joinPP l ++ '\n' :: '\n' :: x := by
  induction l with
  | nil => exact absurd rfl hl
  | cons y r ih =>
    cases r with
    | nil => simp [joinPP_cons, joinPP_single]
    | cons z t =>
      calc joinPP ((y :: z :: t) ++ [x])
          = y ++ '\n' :: '\n' :: joinPP ((z :: t) ++ [x]) :=
            joinPP_cons y z (t ++ [x])
        _ = y ++ '\n' :: '\n' :: (joinPP (z :: t) ++ '\n' :: '\n' :: x) := by
            rw [ih (by simp)]
        _ = (y ++ '\n' :: '\n' :: joinPP (z :: t)) ++ '\n' :: '\n' :: x := by
            simp [List.append_assoc]
        _ = joinPP (y :: z :: t) ++ '\n' :: '\n' :: x := by rw [joinPP_cons]

/-! ## `splitParas` lemmas -/

theorem spa_nil (acc : List Char) : splitParasAux [] acc = [acc.reverse] := by
  rw [splitParasAux.eq_def]

theorem spa_pp (rest2 acc : List Char) :
    splitParasAux ('\n' :: '\n' :: rest2) acc =
      acc.reverse :: splitParasAux (rest2.dropWhile (· = '\n')) [] := by
  rw [splitParasAux.eq_def]
  split
  next heq => exact absurd heq (by simp)
  next v1 v2 heq =>
    simp at heq
    rw [heq]
  next c2 r2 a2 hne heq =>
    simp at heq
    exact (hne rest2 heq.1.symm heq.2.symm).elim

theorem spa_cons (c : Char) (rest acc : List Char)
    (h : ∀ r2 : List Char, c = '\n' → rest = '\n' :: r2 → False) :
    splitParasAux (c :: rest) acc = splitParasAux rest (c :: acc) := by
  rw [splitParasAux.eq_def]
  split
  next heq => exact absurd heq (by simp)
  next v1 v2 heq =>
    simp at heq
    exact (h v2 heq.1 heq.2).elim
  next c2 r2 a2 hne heq =>
    simp at heq
    rw [heq.1, heq.2]

theorem all_nl_takeWhile (s : List Char) :
    AllWS (s.takeWhile (· = '\n')) := by
  intro c hc
  have := List.mem_takeWhile_imp hc
  simp at this
  rw [this]
  rfl

theorem words_dropWhile_nl (s : List Char) :
    wordsC (s.dropWhile (· = '\n')) = wordsC s := by
  conv_rhs => rw [← List.takeWhile_append_dropWhile (· = '\n') s]
  rw [words_ws_left _ (all_nl_takeWhile s)]

theorem words_splitParasAux (s acc : List Char) :
    ((splitParasAux s acc).map wordsC).flatten = wordsC (acc.reverse ++ s) := by
  induction s, acc using splitParasAux.induct with
  | case1 acc =>
    simp [spa_nil, wordsC]
  | case2 rest2 acc ih =>
    rw [spa_pp, List.map_cons, List.flatten_cons, ih, List.reverse_nil,
      List.nil_append, words_dropWhile_nl]
    have h2 := words_append_ws ['\n', '\n']
      (by intro c hc; fin_cases hc <;> rfl) (by simp) acc.reverse rest2
    simp only [List.append_assoc] at h2 ⊢
    rw [show ('\n' :: '\n' :: rest2 : List Char) = ['\n', '\n'] ++ rest2 from rfl, h2]
  | case3 c rest acc hne ih =>
    rw [spa_cons c rest acc hne, ih]
    simp

theorem words_splitParas (s : List Char) :
    ((splitParas s).map wordsC).flatten = wordsC s := by
  simpa using words_splitParasAux s []

theorem splitParasAux_no_nl (s : List Char) (h : '\n' ∉ s) : ∀ acc,
    splitParasAux s acc = [acc.reverse ++ s] := by
  induction s with
  | nil => intro acc; simp [spa_nil]
  | cons c rest ih =>
    intro acc
    have hc : c ≠ '\n' := fun hceq => h (hceq ▸ List.mem_cons_self ..)
    have hrest : '\n' ∉ rest := fun hm => h (List.mem_cons_of_mem _ hm)
    rw [spa_cons c rest acc (fun r2 hceq _ => hc hceq), ih hrest (c :: acc)]
    simp

theorem splitParasAux_append_pp (xs ys : List Char) (h : '\n' ∉ xs) : ∀ acc,
    splitParasAux (xs ++ '\n' :: '\n' :: ys) acc =
      (acc.reverse ++ xs) :: splitParasAux (ys.dropWhile (· = '\n')) [] := by
  induction xs with
  | nil => intro acc; simp [spa_pp]
  | cons c rest ih =>
    intro acc
    have hc : c ≠ '\n' := fun hceq => h (hceq ▸ List.mem_cons_self ..)
    have hrest : '\n' ∉ rest := fun hm => h (List.mem_cons_of_mem _ hm)
    rw [List.cons_append, spa_cons c _ acc (fun r2 hceq _ => hc hceq),
      ih hrest (c :: acc)]
    simp

/-! ## `hasPP` lemmas -/

theorem hasPP_nil : hasPP [] = false := rfl

theorem hasPP_single (c : Char) : hasPP [c] = false := rfl

theorem hasPP_cons2 (c d : Char) (rest : List Char) :
    hasPP (c :: d :: rest) = ((c == '\n' && d == '\n') || hasPP (d :: rest)) := by
  rw [hasPP]

theorem hasPP_of_no_nl (s : List Char) (h : '\n' ∉ s) : hasPP s = false := by
  induction s with
  | nil => rfl
  | cons c rest ih =>
    have hc : c ≠ '\n' := fun hceq => h (hceq ▸ List.mem_cons_self ..)
    have hrest : '\n' ∉ rest := fun hm => h (List.mem_cons_of_mem _ hm)
    cases rest with
    | nil => rfl
    | cons d r =>
      rw [hasPP_cons2, ih hrest, Bool.or_false, Bool.and_eq_false_iff]
      left
      simpa using hc

theorem hasPP_append_left (xs ys : List Char)
    (h : hasPP (xs ++ ys) = false) : hasPP xs = false := by
  induction xs with
  | nil => rfl
  | cons c rest ih =>
    cases rest with
    | nil => rfl
    | cons d r =>
      rw [List.cons_append] at h
      rw [List.cons_append] at h
      rw [hasPP_cons2] at h
      simp only [Bool.or_eq_false_iff] at h
      rw [hasPP_cons2, ih (by rw [List.cons_append]; exact h.2), h.1]
      rfl

theorem hasPP_append_right (xs ys : List Char)
    (h : hasPP (xs ++ ys) = false) : hasPP ys = false := by
  induction xs with
  | nil => simpa using h
  | cons c rest ih =>
    apply ih
    cases rest with
    | nil =>
      simp only [List.nil_append]
      cases ys with
      | nil => rfl
      | cons e ys2 =>
        simp only [List.cons_append, List.nil_append] at h
        rw [hasPP_cons2] at h
        simp only [Bool.or_eq_false_iff] at h
        exact h.2
    | cons d r =>
      simp only [List.cons_append] at h ⊢
      rw [hasPP_cons2] at h
      simp only [Bool.or_eq_false_iff] at h
      exact h.2

theorem hasPP_infix (t mid pre suf : List Char) (hdec : t = pre ++ mid ++ suf)
    (h : hasPP t = false) : hasPP mid = false := by
  rw [hdec] at h
  exact hasPP_append_left _ _ (hasPP_append_right _ _ (by simpa [List.append_assoc] using h))

theorem hasPP_stripC (s : List Char) (h : hasPP s = false) :
    hasPP (stripC s) = false := by
  obtain ⟨pre, suf, _, _, hs⟩ := strip_decomp s
  exact hasPP_infix s (stripC s) pre suf hs h

theorem hasPP_append_singleton (xs : List Char) (c : Char)
    (hx : hasPP xs = false)
    (hlast : ∀ d, xs.getLast? = some d → d = '\n' → c = '\n' → False) :
    hasPP (xs ++ [c]) = false := by
  induction xs with
  | nil => rfl
  | cons a rest ih =>
    cases rest with
    | nil =>
      rw [List.cons_append, List.nil_append, hasPP_cons2, hasPP_single,
        Bool.or_false, Bool.and_eq_false_iff]
      by_cases ha : a = '\n'
      · right
        by_cases hc : c = '\n'
        · exact (hlast a rfl ha hc).elim
        · simpa using hc
      · left
        simpa using ha
    | cons b r =>
      rw [hasPP_cons2] at hx
      simp only [Bool.or_eq_false_iff] at hx
      simp only [List.cons_append]
      rw [hasPP_cons2]
      have ihr := ih hx.2 (fun d hd => hlast d (by rw [List.getLast?_cons_cons]; exact hd))
      simp only [List.cons_append] at ihr
      rw [ihr, hx.1]
      rfl

theorem splitParasAux_no_pp (s acc : List Char)
    (hacc : hasPP acc.reverse = false)
    (hnext : acc.head? = some '\n' → s.head? ≠ some '\n') :
    ∀ t ∈ splitParasAux s acc, hasPP t = false := by
  induction s, acc using splitParasAux.induct with
  | case1 acc =>
    intro t ht
    rw [spa_nil] at ht
    simp at ht
    rw [ht]
    exact hacc
  | case2 rest2 acc ih =>
    intro t ht
    rw [spa_pp] at ht
    rcases List.mem_cons.mp ht with h1 | h2
    · rw [h1]; exact hacc
    · exact ih (by rfl) (by simp) t h2
  | case3 c rest acc hne ih =>
    intro t ht
    rw [spa_cons c rest acc hne] at ht
    refine ih ?_ ?_ t ht
    · rw [List.reverse_cons]
      refine hasPP_append_singleton acc.reverse c hacc ?_
      intro d hd hdnl hcnl
      rw [List.getLast?_reverse] at hd
      exact hnext (by rw [hd, hdnl]) (by simp [hcnl])
    · intro hhead hrest
      simp only [List.head?_cons, Option.some_inj] at hhead
      cases rest with
      | nil => simp at hrest
      | cons e rr =>
        simp only [List.head?_cons, Option.some_inj] at hrest
        exact hne rr hhead (by rw [hrest])

theorem splitParas_no_pp (s : List Char) :
    ∀ t ∈ splitParas s, hasPP t = false := by
  intro t ht
  exact splitParasAux_no_pp s [] (by rfl) (by simp) t ht

theorem splitParas_of_no_pp (t : List Char) (h : hasPP t = false) :
    splitParas t = [t] := by
  have haux : ∀ s acc, hasPP s = false → splitParasAux s acc = [acc.reverse ++ s] := by
    intro s
    induction s with
    | nil => intro acc _; simp [spa_nil]
    | cons c rest ih =>
      intro acc hs
      have hstep : ∀ r2 : List Char, c = '\n' → rest = '\n' :: r2 → False := by
        intro r2 hc hr
        rw [hc, hr, hasPP_cons2] at hs
        simp at hs
      rw [spa_cons c rest acc hstep, ih (c :: acc) ?_]
      · simp
      · cases rest with
        | nil => rfl
        | cons d r =>
          rw [hasPP_cons2] at hs
          simp only [Bool.or_eq_false_iff] at hs
          exact hs.2
  simpa using haux t [] h

/-! ## `split_by_paragraphs` lemmas -/

theorem sbp_words (max_tokens : Nat) (paras : List (List Char)) :
    ∀ cur tok, ((sbpAux max_tokens paras cur tok).map wordsC).flatten =
      (if cur.isEmpty then [] else wordsC (joinPP cur.reverse)) ++
        (paras.map wordsC).flatten := by
  induction paras with
  | nil =>
    intro cur tok
    cases cur with
    | nil => simp [sbpAux]
    | cons p r => simp [sbpAux]
  | cons para paras ih =>
    intro cur tok
    rw [sbpAux]
    by_cases hemit : tok + count_tokens para > max_tokens ∧ cur.isEmpty = false
    · have hcond : (decide (tok + count_tokens para > max_tokens) && !cur.isEmpty) = true := by
        simp [hemit.1, hemit.2]
      rw [if_pos hcond, List.map_cons, List.flatten_cons, ih [para] (count_tokens para)]
      rw [hemit.2]
      simp [joinPP_single, List.append_assoc]
    · have hcond : ¬ ((decide (tok + count_tokens para > max_tokens) && !cur.isEmpty) = true) := by
        intro hc
        simp only [Bool.and_eq_true, decide_eq_true_eq, Bool.not_eq_true'] at hc
        exact hemit ⟨hc.1, hc.2⟩
      rw [if_neg hcond, ih (para :: cur) (tok + count_tokens para)]
      cases cur with
      | nil => simp [joinPP_single]
      | cons q r =>
        rw [show ((para :: q :: r).isEmpty) = false from rfl,
          show ((q :: r).isEmpty) = false from rfl]
        simp only [Bool.false_eq_true, if_false]
        rw [show ((para :: q :: r).reverse) = (q :: r).reverse ++ [para] by simp,
          joinPP_append_single _ para (by simp)]
        have h2 := words_append_ws ['\n', '\n']
          (by intro c hc; fin_cases hc <;> rfl) (by simp)
          (joinPP (q :: r).reverse) para
        simp only [List.append_assoc, List.cons_append, List.nil_append] at h2
        rw [h2]
        simp [List.append_assoc]

theorem words_split_by_paragraphs (text : List Char) (max_tokens : Nat) :
    ((split_by_paragraphs text max_tokens).map wordsC).flatten = wordsC text := by
  rw [split_by_paragraphs, sbp_words]
  simpa using words_splitParas text

theorem count_split_by_paragraphs (text : List Char) (max_tokens : Nat) :
    ((split_by_paragraphs text max_tokens).map count_tokens).sum =
      count_tokens text := by
  have h := words_split_by_paragraphs text max_tokens
  have h2 : count_tokens text =
      (((split_by_paragraphs text max_tokens).map wordsC).flatten).length := by
    rw [h]
    rfl
  rw [h2, List.length_flatten, List.map_map]
  rfl

theorem sbp_budget (max_tokens : Nat) (paras : List (List Char)) :
    ∀ cur tok, tok = (cur.map count_tokens).sum →
      (2 ≤ cur.length → tok ≤ max_tokens) →
      ∀ ch ∈ sbpAux max_tokens paras cur tok,
        count_tokens ch ≤ max_tokens ∨ ch ∈ cur ∨ ch ∈ paras := by
  induction paras with
  | nil =>
    intro cur tok hsum hbound ch hch
    rw [sbpAux] at hch
    cases cur with
    | nil => simp at hch
    | cons p r =>
      simp only [List.isEmpty_cons, Bool.false_eq_true, if_false, List.mem_singleton] at hch
      cases r with
      | nil =>
        right; left
        rw [hch]
        simp [joinPP_single]
      | cons q t =>
        left
        rw [hch, count_joinPP, List.map_reverse, List.sum_reverse, ← hsum]
        exact hbound (by simp)
  | cons para paras ih =>
    intro cur tok hsum hbound ch hch
    rw [sbpAux] at hch
    by_cases hemit : tok + count_tokens para > max_tokens ∧ cur.isEmpty = false
    · rw [if_pos (by simp [hemit.1, hemit.2])] at hch
      rcases List.mem_cons.mp hch with h1 | h2
      · cases cur with
        | nil => simp at hemit
        | cons p r =>
          cases r with
          | nil =>
            right; left
            rw [h1]
            simp [joinPP_single]
          | cons q t =>
            left
            rw [h1, count_joinPP, List.map_reverse, List.sum_reverse, ← hsum]
            exact hbound (by simp)
      · rcases ih [para] (count_tokens para) (by simp) (by simp) ch h2 with hb | hm | hp
        · exact Or.inl hb
        · right; right
          simp at hm
          simp [hm]
        · right; right
          exact List.mem_cons_of_mem _ hp
    · rw [if_neg (by
        intro hc
        simp only [Bool.and_eq_true, decide_eq_true_eq, Bool.not_eq_true'] at hc
        exact hemit ⟨hc.1, hc.2⟩)] at hch
      have hnew : tok + count_tokens para = ((para :: cur).map count_tokens).sum := by
        simp [hsum]
        omega
      have hbound' : 2 ≤ (para :: cur).length → tok + count_tokens para ≤ max_tokens := by
        intro hlen
        cases cur with
        | nil => simp at hlen
        | cons p r =>
          by_cases hgt : tok + count_tokens para > max_tokens
          · exact absurd ⟨hgt, by simp⟩ hemit
          · omega
      rcases ih (para :: cur) (tok + count_tokens para) hnew hbound' ch hch with hb | hm | hp
      · exact Or.inl hb
      · rcases List.mem_cons.mp hm with h1 | h2
        · right; right
          simp [h1]
        · right; left
          exact h2
      · right; right
        exact List.mem_cons_of_mem _ hp

theorem split_by_paragraphs_budget (text : List Char) (max_tokens : Nat) :
    ∀ ch ∈ split_by_paragraphs text max_tokens,
      count_tokens ch ≤ max_tokens ∨ ch ∈ splitParas text := by
  intro ch hch
  rcases sbp_budget max_tokens (splitParas text) [] 0 (by simp) (by simp) ch hch with
    hb | hm | hp
  · exact Or.inl hb
  · simp at hm
  · exact Or.inr hp

/-! ## `merge_small_sections` lemmas -/

theorem ms_words (threshold : Nat) (rest : List PSection) :
    ∀ cur, ((msAux threshold cur rest).map fun s => wordsC s.text).flatten =
      wordsC cur.text ++ (rest.map fun s => wordsC s.text).flatten := by
  induction rest with
  | nil => intro cur; simp [msAux]
  | cons s rest ih =>
    intro cur
    rw [msAux]
    by_cases hm : count_tokens cur.text + count_tokens s.text ≤ threshold
    · rw [if_pos hm, ih]
      have h2 := words_append_ws ['\n', '\n']
        (by intro c hc; fin_cases hc <;> rfl) (by simp) cur.text s.text
      simp only [List.append_assoc, List.cons_append, List.nil_append] at h2
      simp [h2, List.append_assoc]
    · rw [if_neg hm]
      simp only [List.map_cons, List.flatten_cons]
      rw [ih]

theorem merge_words (sections : List PSection) (threshold : Nat) :
    ((merge_small_sections sections threshold).map fun s => wordsC s.text).flatten =
      (sections.map fun s => wordsC s.text).flatten := by
  cases sections with
  | nil => rfl
  | cons s rest =>
    rw [merge_small_sections, ms_words]
    simp

/-! ## `split_by_headings` lemmas -/

theorem joinNl_append_single (l : List (List Char)) (x : List Char) (hl : l ≠ []) :
    joinNl (l ++ [x]) = joinNl l ++ '\n' :: x := by
  induction l with
  | nil => exact absurd rfl hl
  | cons y r ih =>
    cases r with
    | nil => simp [joinNl_cons, joinNl_single]
    | cons z t =>
      calc joinNl ((y :: z :: t) ++ [x])
          = y ++ '\n' :: joinNl ((z :: t) ++ [x]) := joinNl_cons y z (t ++ [x])
        _ = y ++ '\n' :: (joinNl (z :: t) ++ '\n' :: x) := by rw [ih (by simp)]
        _ = (y ++ '\n' :: joinNl (z :: t)) ++ '\n' :: x := by simp [List.append_assoc]
        _ = joinNl (y :: z :: t) ++ '\n' :: x := by rw [joinNl_cons]

theorem saveSection_words (heading : Option (List Char)) (acc : List (List Char)) :
    ((saveSection heading acc).map fun s => wordsC s.text).flatten =
      wordsC (joinNl acc.reverse) := by
  rw [saveSection]
  by_cases hacc : acc.isEmpty
  · rw [if_pos hacc]
    rw [List.isEmpty_iff] at hacc
    simp [hacc, joinNl_nil, wordsC, wordsAux]
  · rw [if_neg hacc]
    by_cases hstrip : (stripC (joinNl acc.reverse)).isEmpty
    · rw [if_pos hstrip]
      rw [List.isEmpty_iff] at hstrip
      simp [words_of_strip_nil _ hstrip]
    · rw [if_neg hstrip]
      simp [words_stripC]

theorem sbh_words (lines : List (List Char)) :
    ∀ heading acc, ((sbhAux lines heading acc).map fun s => wordsC s.text).flatten =
      wordsC (joinNl acc.reverse) ++
        ((lines.filter fun l => (headingOf l).isNone).map wordsC).flatten := by
  induction lines with
  | nil =>
    intro heading acc
    simp [sbhAux, saveSection_words]
  | cons l ls ih =>
    intro heading acc
    rw [sbhAux]
    cases hh : headingOf l with
    | some hd =>
      simp only [List.map_append, List.flatten_append]
      rw [saveSection_words, ih (some hd) []]
      simp [List.filter_cons, hh, joinNl_nil, wordsC, wordsAux]
    | none =>
      rw [ih heading (l :: acc)]
      rw [List.filter_cons]
      simp only [hh, Option.isNone_none]
      cases hacc : acc with
      | nil =>
        simp [joinNl_single, joinNl_nil, wordsC, wordsAux]
      | cons a as =>
        rw [List.reverse_cons, joinNl_append_single _ l (by simp [hacc])]
        have h2 := words_append_ws ['\n']
          (by intro c hc; fin_cases hc; rfl) (by simp)
          (joinNl (a :: as).reverse) l
        simp only [List.append_assoc, List.cons_append, List.nil_append] at h2
        rw [h2]
        simp [List.append_assoc]

theorem words_split_by_headings (markdown : List Char) :
    ((split_by_headings markdown).map fun s => wordsC s.text).flatten =
      ((nonHeadingLines markdown).map wordsC).flatten := by
  rw [split_by_headings, nonHeadingLines, sbh_words]
  simp [joinNl_nil, wordsC, wordsAux]

/-! ## `chunk_article` words lemmas -/

theorem words_final_chunks (sections : List PSection) :
    (((sections.flatMap fun s =>
        if count_tokens s.text > MAX_CHUNK_TOKENS then
          (split_by_paragraphs s.text MAX_CHUNK_TOKENS).map
            fun sub => (⟨s.heading, sub⟩ : PSection)
        else [s]).map fun s => wordsC s.text)).flatten =
      ((sections.map fun s => wordsC s.text)).flatten := by
  induction sections with
  | nil => rfl
  | cons s rest ih =>
    rw [List.flatMap_cons, List.map_append, List.flatten_append, ih]
    by_cases hbig : count_tokens s.text > MAX_CHUNK_TOKENS
    · rw [if_pos hbig]
      simp only [List.map_map, List.map_cons, List.flatten_cons]
      have : ((split_by_paragraphs s.text MAX_CHUNK_TOKENS).map
          ((fun s => wordsC s.text) ∘ fun sub => (⟨s.heading, sub⟩ : PSection))) =
          (split_by_paragraphs s.text MAX_CHUNK_TOKENS).map wordsC := rfl
      rw [this, words_split_by_paragraphs]
    · rw [if_neg hbig]
      simp

theorem words_finalize (l : List PSection) : ∀ n,
    (((l.enumFrom n).filterMap fun p =>
        let text := stripC p.2.text
        if text.isEmpty then none
        else some (⟨p.1, text, p.2.heading, count_tokens text⟩ : ChunkRec)).map
      fun c => wordsC c.chunk_text).flatten =
      ((l.map fun s => wordsC s.text)).flatten := by
  induction l with
  | nil => intro n; rfl
  | cons s rest ih =>
    intro n
    have henum : (s :: rest).enumFrom n = (n, s) :: rest.enumFrom (n + 1) := rfl
    rw [henum, List.filterMap_cons]
    by_cases hstrip : (stripC s.text).isEmpty
    · simp only [hstrip, if_pos]
      rw [ih (n + 1)]
      rw [List.isEmpty_iff] at hstrip
      simp [words_of_strip_nil _ hstrip]
    · simp only [hstrip, Bool.false_eq_true, if_false, if_neg]
      simp only [List.map_cons, List.flatten_cons]
      rw [ih (n + 1), words_stripC]

theorem words_chunk_article (markdown : List Char) :
    ((chunk_article markdown).map fun c => wordsC c.chunk_text).flatten =
      if (split_by_headings markdown).isEmpty then wordsC markdown
      else ((nonHeadingLines markdown).map wordsC).flatten := by
  rw [chunk_article]
  simp only [List.enum]
  rw [words_finalize, words_final_chunks, merge_words]
  by_cases hempty : (split_by_headings markdown).isEmpty
  · rw [if_pos hempty, if_pos hempty]
    simp
  · rw [if_neg hempty, if_neg hempty, words_split_by_headings]

theorem enumFrom_mem_snd (l : List PSection) :
    ∀ n p, p ∈ l.enumFrom n → p.2 ∈ l := by
  induction l with
  | nil => intro n p hp; simp [List.enumFrom] at hp
  | cons s rest ih =>
    intro n p hp
    rcases List.mem_cons.mp hp with h1 | h2
    · rw [h1]; exact List.mem_cons_self ..
    · exact List.mem_cons_of_mem _ (ih (n + 1) p h2)

theorem final_chunks_budget (sections : List PSection) :
    ∀ sec ∈ (sections.flatMap fun s =>
        if count_tokens s.text > MAX_CHUNK_TOKENS then
          (split_by_paragraphs s.text MAX_CHUNK_TOKENS).map
            fun sub => (⟨s.heading, sub⟩ : PSection)
        else [s]),
      count_tokens sec.text ≤ MAX_CHUNK_TOKENS ∨ hasPP sec.text = false := by
  intro sec hsec
  rw [List.mem_flatMap] at hsec
  obtain ⟨s, _, hmem⟩ := hsec
  by_cases hbig : count_tokens s.text > MAX_CHUNK_TOKENS
  · rw [if_pos hbig] at hmem
    rw [List.mem_map] at hmem
    obtain ⟨sub, hsub, heq⟩ := hmem
    rcases split_by_paragraphs_budget s.text MAX_CHUNK_TOKENS sub hsub with hb | hp
    · left; rw [← heq]; exact hb
    · right; rw [← heq]; exact splitParas_no_pp s.text sub hp
  · rw [if_neg hbig] at hmem
    rw [List.mem_singleton] at hmem
    left
    rw [hmem]
    omega

theorem chunk_article_shape (markdown : List Char) (ch : ChunkRec)
    (h : ch ∈ chunk_article markdown) :
    ∃ sec : PSection,
      ch.chunk_text = stripC sec.text ∧
      ch.heading = sec.heading ∧
      ch.token_count = count_tokens ch.chunk_text ∧
      ch.chunk_text ≠ [] ∧
      (count_tokens sec.text ≤ MAX_CHUNK_TOKENS ∨ hasPP sec.text = false) := by
  rw [chunk_article] at h
  simp only [List.enum] at h
  rw [List.mem_filterMap] at h
  obtain ⟨p, hp, hsome⟩ := h
  by_cases hstrip : (stripC p.2.text).isEmpty
  · simp only [hstrip, if_pos] at hsome
    exact absurd hsome (by simp)
  · simp only [hstrip, Bool.false_eq_true, if_false, if_neg, Option.some_inj] at hsome
    refine ⟨p.2, ?_, ?_, ?_, ?_, ?_⟩
    · rw [← hsome]
    · rw [← hsome]
    · rw [← hsome]
    · rw [← hsome]
      simpa using hstrip
    · exact final_chunks_budget _ p.2 (enumFrom_mem_snd _ 0 p hp)

/-- C1 (counterexample): the text of a heading line is dropped from the chunk
texts, so concatenating chunk texts and collapsing whitespace does not
reproduce the original content when a heading line is present. -/
theorem C1_counterexample :
    collapseWS (joinPP ((chunk_article ('a' :: '\n' :: '#' :: '#' :: ' ' :: 'H' :: '\n' :: 'b' :: [])).map
        fun c => c.chunk_text)) ≠
      collapseWS ('a' :: '\n' :: '#' :: '#' :: ' ' :: 'H' :: '\n' :: 'b' :: []) := by
  decide

/-- C1 (amended): concatenating the chunk texts of `chunk_article`'s output in
index order and collapsing whitespace reproduces the original text's content
with the heading lines removed (their text survives only as heading labels);
in the degenerate case where no section at all survives heading splitting
(the text is only heading lines and whitespace), the whole raw text forms the
single section, so the full content including heading lines is reproduced. -/
theorem C1_amended_reproduction (markdown : List Char) :
    collapseWS (joinPP ((chunk_article markdown).map fun c => c.chunk_text)) =
      if (split_by_headings markdown).isEmpty then collapseWS markdown
      else collapseWS (joinNl (nonHeadingLines markdown)) := by
  have hl : wordsC (joinPP ((chunk_article markdown).map fun c => c.chunk_text)) =
      ((chunk_article markdown).map fun c => wordsC c.chunk_text).flatten := by
    rw [words_joinPP, List.map_map]
    rfl
  by_cases hempty : (split_by_headings markdown).isEmpty
  · rw [if_pos hempty, collapseWS, collapseWS, hl, words_chunk_article,
      if_pos hempty]
  · rw [if_neg hempty, collapseWS, collapseWS, hl, words_chunk_article,
      if_neg hempty, words_joinNl]

/-- C3: every chunk of `chunk_article` respects the `MAX_CHUNK_TOKENS` budget
except a chunk that is a single paragraph (no internal blank-line boundary:
`splitParas` returns it whole); and every sub-chunk produced by
`split_by_paragraphs` either respects the budget or is a single original
paragraph. -/
theorem C3_token_budget :
    (∀ markdown ch, ch ∈ chunk_article markdown →
      ch.token_count ≤ MAX_CHUNK_TOKENS ∨
        splitParas ch.chunk_text = [ch.chunk_text]) ∧
    (∀ text max_tokens sub, sub ∈ split_by_paragraphs text max_tokens →
      count_tokens sub ≤ max_tokens ∨ sub ∈ splitParas text) := by
  constructor
  · intro markdown ch hch
    obtain ⟨sec, htext, _, hcount, _, hbudget⟩ := chunk_article_shape markdown ch hch
    rcases hbudget with hb | hpp
    · left
      rw [hcount, htext, count_stripC]
      exact hb
    · right
      rw [htext]
      exact splitParas_of_no_pp _ (hasPP_stripC _ hpp)
  · intro text max_tokens sub hsub
    exact split_by_paragraphs_budget text max_tokens sub hsub

/-- C10: every record of `chunk_article`'s output has a nonempty,
already-stripped `chunk_text`, and its `token_count` is `count_tokens` of
that text. -/
theorem C10_chunk_record_invariants (markdown : List Char) (ch : ChunkRec)
    (h : ch ∈ chunk_article markdown) :
    ch.chunk_text ≠ [] ∧ stripC ch.chunk_text = ch.chunk_text ∧
      ch.token_count = count_tokens ch.chunk_text := by
  obtain ⟨sec, htext, _, hcount, hne, _⟩ := chunk_article_shape markdown ch h
  refine ⟨hne, ?_, hcount⟩
  rw [htext, stripC_idem]

/-- C10 witness: the invariants at a concrete input. -/
theorem C10_chunk_record_invariants_witness :
    (⟨0, ['h', 'i', ' ', 'y', 'o'], none, 2⟩ : ChunkRec).chunk_text ≠ [] ∧
      stripC (⟨0, ['h', 'i', ' ', 'y', 'o'], none, 2⟩ : ChunkRec).chunk_text =
        (⟨0, ['h', 'i', ' ', 'y', 'o'], none, 2⟩ : ChunkRec).chunk_text ∧
      (⟨0, ['h', 'i', ' ', 'y', 'o'], none, 2⟩ : ChunkRec).token_count =
        count_tokens (⟨0, ['h', 'i', ' ', 'y', 'o'], none, 2⟩ : ChunkRec).chunk_text :=
  C10_chunk_record_invariants ['h', 'i', ' ', 'y', 'o'] _ (by decide)

/-! ## Merge refinement (spec §4.1 step 2) and scenario A -/

theorem keepHeading_code (cur next : Option (List Char)) :
    (match cur with
      | none => next
      | some [] => next
      | some h => some h) = keepHeadingSpec cur next := by
  rw [keepHeadingSpec]
  match cur with
  | none => simp
  | some [] => simp
  | some (c :: h) => simp

theorem msAux_spec (threshold : Nat) (rest : List PSection) :
    ∀ done cur,
      (let st := rest.foldl (mergeSpecStep threshold) (done, some cur)
       st.1 ++ st.2.toList) = done ++ msAux threshold cur rest := by
  induction rest with
  | nil => intro done cur; simp [msAux]
  | cons s rest ih =>
    intro done cur
    rw [List.foldl_cons, msAux]
    by_cases hm : count_tokens cur.text + count_tokens s.text ≤ threshold
    · rw [if_pos hm]
      have hstep : mergeSpecStep threshold (done, some cur) s =
          (done, some ⟨keepHeadingSpec cur.heading s.heading,
            cur.text ++ '\n' :: '\n' :: s.text⟩) := by
        rw [mergeSpecStep]
        simp only [if_pos hm]
      rw [hstep, ih done, keepHeading_code]
    · rw [if_neg hm]
      have hstep : mergeSpecStep threshold (done, some cur) s =
          (done ++ [cur], some s) := by
        rw [mergeSpecStep]
        simp only [if_neg hm]
      rw [hstep, ih (done ++ [cur])]
      simp

theorem merge_refines_spec (sections : List PSection) (threshold : Nat) :
    merge_small_sections sections threshold = merge_spec threshold sections := by
  cases sections with
  | nil => rfl
  | cons s rest =>
    rw [merge_small_sections, merge_spec]
    have h0 : (s :: rest).foldl (mergeSpecStep threshold) ([], none) =
        rest.foldl (mergeSpecStep threshold) ([], some s) := by
      rw [List.foldl_cons]
      rfl
    rw [h0]
    exact (by simpa using msAux_spec threshold rest [] s : _ = _).symm

/-- C4 (counterexample): the claim says the kept heading is whichever heading
is non-null, preferring the earlier one; but for an earlier heading that is
the non-null empty string the code keeps the later heading instead (Python
truthiness, not a null test). -/
theorem C4_counterexample :
    (merge_small_sections [⟨some [], ['a']⟩, ⟨some ['X'], ['b']⟩] 750).map
        PSection.heading = [some ['X']] ∧
      (some ([] : List Char)) ≠ none := by
  decide

/-- C4 (amended): merging goes forward from the first section; when the
running section's token count plus the next's is ≤ the threshold the texts
are joined with a blank line and the kept heading is whichever is truthy
(non-null and non-empty), preferring the earlier; otherwise a new running
section starts.  This is stated as a refinement against `merge_spec`, the
spec's forward-merge loop.  Consequently spec scenario A (two headed
sections of 200 and 100 tokens, threshold 750) yields exactly one merged
chunk carrying the first heading. -/
theorem C4_merge_behavior :
    (∀ sections threshold,
      merge_small_sections sections threshold = merge_spec threshold sections) ∧
    chunk_article scenarioAText =
      [⟨0, aWords 200 ++ '\n' :: '\n' :: aWords 100, some ['H', '1'], 300⟩] := by
  constructor
  · exact merge_refines_spec
  · set_option maxRecDepth 100000 in decide

/-! ## Facts about `aWords` and the C2 failing input -/

theorem aWords_succ_succ (n : Nat) : aWords (n + 2) = 'a' :: ' ' :: aWords (n + 1) := rfl

theorem aWords_mem (n : Nat) : ∀ c ∈ aWords n, c = 'a' ∨ c = ' ' := by
  induction n using aWords.induct with
  | case1 => intro c hc; simp [aWords] at hc
  | case2 => intro c hc; simp [aWords] at hc; simp [hc]
  | case3 n ih =>
    intro c hc
    rw [aWords_succ_succ] at hc
    rcases List.mem_cons.mp hc with h1 | h2
    · exact Or.inl h1
    · rcases List.mem_cons.mp h2 with h3 | h4
      · exact Or.inr h3
      · exact ih c h4

theorem aWords_head (n : Nat) : ∃ t, aWords (n + 1) = 'a' :: t := by
  cases n with
  | zero => exact ⟨[], rfl⟩
  | succ m => exact ⟨' ' :: aWords (m + 1), rfl⟩

theorem aWords_reverse_head (n : Nat) :
    (aWords (n + 1)).reverse.head? = some 'a' := by
  induction n with
  | zero => rfl
  | succ m ih =>
    rw [aWords_succ_succ]
    simp only [List.reverse_cons, List.append_assoc]
    rw [List.head?_append, List.head?_append, ih]
    rfl

theorem aWords_no_nl (n : Nat) : '\n' ∉ aWords n := by
  intro h
  rcases aWords_mem n '\n' h with h1 | h1 <;> exact absurd h1 (by decide)

theorem aWords_count (n : Nat) :
    ∀ acc, (wordsAux (aWords (n + 1)) acc).length = n + 1 := by
  induction n with
  | zero =>
    intro acc
    show (wordsAux ['a'] acc).length = 1
    simp [wordsAux, isPySpace]
  | succ m ih =>
    intro acc
    rw [aWords_succ_succ, wordsAux]
    simp only [show isPySpace 'a' = false from rfl, Bool.false_eq_true, if_false]
    rw [wordsAux]
    simp only [show isPySpace ' ' = true from rfl, if_true]
    simp only [List.isEmpty_cons, Bool.false_eq_true, if_false, List.length_cons]
    rw [ih []]

theorem count_aWords (n : Nat) : count_tokens (aWords (n + 1)) = n + 1 := by
  rw [count_tokens, wordsC]
  exact aWords_count n []

theorem stripC_aWords (n : Nat) : stripC (aWords (n + 1)) = aWords (n + 1) := by
  refine stripC_eq_self _ ?_ ?_
  · intro c hc
    obtain ⟨t, ht⟩ := aWords_head n
    rw [ht] at hc
    simp at hc
    rw [← hc]
    rfl
  · intro c hc
    rw [← List.head?_reverse] at hc
    rw [aWords_reverse_head n] at hc
    simp at hc
    rw [← hc]
    rfl

/-! ## `splitOnChar` lemmas -/

theorem splitOnChar_ne_nil (sep : Char) (l : List Char) :
    splitOnChar sep l ≠ [] := by
  cases l with
  | nil => simp [splitOnChar]
  | cons c cs =>
    rw [splitOnChar]
    cases h : splitOnChar sep cs with
    | nil => simp
    | cons g gs =>
      by_cases hc : c = sep
      · simp [hc]
      · simp [hc]

theorem splitOnChar_no_sep (sep : Char) (xs : List Char) (h : sep ∉ xs) :
    splitOnChar sep xs = [xs] := by
  induction xs with
  | nil => rfl
  | cons c cs ih =>
    have hc : c ≠ sep := fun hceq => h (hceq ▸ List.mem_cons_self ..)
    have hcs : sep ∉ cs := fun hm => h (List.mem_cons_of_mem _ hm)
    rw [splitOnChar, ih hcs]
    simp [hc]

theorem splitOnChar_append (sep : Char) (xs ys : List Char) (h : sep ∉ xs) :
    splitOnChar sep (xs ++ sep :: ys) = xs :: splitOnChar sep ys := by
  induction xs with
  | nil =>
    rw [List.nil_append, splitOnChar]
    cases hys : splitOnChar sep ys with
    | nil => exact absurd hys (splitOnChar_ne_nil sep ys)
    | cons g gs => simp
  | cons c cs ih =>
    have hc : c ≠ sep := fun hceq => h (hceq ▸ List.mem_cons_self ..)
    have hcs : sep ∉ cs := fun hm => h (List.mem_cons_of_mem _ hm)
    rw [List.cons_append, splitOnChar, ih hcs]
    simp [hc]

theorem joinNl_five (x y : List Char) :
    joinNl [x, [], [' '], [], y] =
      x ++ '\n' :: '\n' :: ' ' :: '\n' :: '\n' :: y := by
  rw [joinNl_cons, joinNl_cons, joinNl_cons, joinNl_cons, joinNl_single]
  simp

theorem headingOf_cons_ne_hash (c : Char) (t : List Char) (hc : ¬ c = '#') :
    headingOf (c :: t) = none := by
  rw [headingOf]
  rw [List.takeWhile_cons_of_neg (by simpa using hc)]
  simp

theorem aWords_1001_cons : ∃ t, aWords 1001 = 'a' :: t := by
  have h := aWords_head 1000
  norm_num at h
  exact h

theorem count_aWords_1001 : count_tokens (aWords 1001) = 1001 := by
  have h := count_aWords 1000
  norm_num at h
  exact h

theorem stripC_aWords_1001 : stripC (aWords 1001) = aWords 1001 := by
  have h := stripC_aWords 1000
  norm_num at h
  exact h

theorem c2_split_headings :
    split_by_headings c2FailingInput = [⟨none, c2FailingInput⟩] := by
  obtain ⟨t, ht⟩ := aWords_1001_cons
  have hnl : '\n' ∉ aWords 1001 := aWords_no_nl 1001
  have hlines : splitOnChar '\n' c2FailingInput =
      [aWords 1001, [], [' '], [], aWords 1001] := by
    rw [c2FailingInput, splitOnChar_append '\n' _ _ hnl]
    rw [show ('\n' :: ' ' :: '\n' :: '\n' :: aWords 1001 : List Char) =
      [] ++ '\n' :: (' ' :: '\n' :: '\n' :: aWords 1001) from rfl,
      splitOnChar_append '\n' [] _ (by simp)]
    rw [show (' ' :: '\n' :: '\n' :: aWords 1001 : List Char) =
      [' '] ++ '\n' :: ('\n' :: aWords 1001) from rfl,
      splitOnChar_append '\n' [' '] _ (by simp)]
    rw [show ('\n' :: aWords 1001 : List Char) =
      [] ++ '\n' :: aWords 1001 from rfl,
      splitOnChar_append '\n' [] _ (by simp)]
    rw [splitOnChar_no_sep '\n' _ hnl]
  have hhB : headingOf (aWords 1001) = none := by
    rw [ht]
    exact headingOf_cons_ne_hash 'a' t (by decide)
  have hstrip : stripC c2FailingInput = c2FailingInput := by
    refine stripC_eq_self _ ?_ ?_
    · intro c hc
      rw [c2FailingInput, List.head?_append, ht] at hc
      simp at hc
      rw [← hc]
      rfl
    · intro c hc
      rw [show c2FailingInput =
        (aWords 1001 ++ ['\n', '\n', ' ', '\n', '\n']) ++ aWords 1001 by
          rw [c2FailingInput]; simp] at hc
      rw [List.getLast?_append_of_ne_nil _ (by rw [ht]; simp)] at hc
      have hrev := aWords_reverse_head 1000
      norm_num at hrev
      rw [hrev] at hc
      simp at hc
      rw [← hc]
      rfl
  rw [split_by_headings, hlines]
  simp only [sbhAux, hhB, headingOf_cons_ne_hash ' ' [] (by decide),
    show headingOf [] = none by rfl]
  rw [saveSection]
  simp only [List.isEmpty_cons, Bool.false_eq_true, if_false]
  rw [show ([aWords 1001, [], [' '], [], aWords 1001] : List (List Char)).reverse =
    [aWords 1001, [], [' '], [], aWords 1001] by rfl]
  rw [joinNl_five]
  rw [show (aWords 1001 ++ '\n' :: '\n' :: ' ' :: '\n' :: '\n' :: aWords 1001) =
    c2FailingInput from rfl]
  rw [hstrip]
  rw [show c2FailingInput.isEmpty = false by
    rw [c2FailingInput, ht]
    simp]
  rfl

theorem c2_count : count_tokens c2FailingInput = 2002 := by
  have hws : AllWS ['\n', '\n', ' ', '\n', '\n'] := by
    intro c hc
    fin_cases hc <;> rfl
  have hshape : c2FailingInput =
      aWords 1001 ++ ['\n', '\n', ' ', '\n', '\n'] ++ aWords 1001 := by
    rw [c2FailingInput]
    simp
  rw [count_tokens, hshape, words_append_ws _ hws (by simp), List.length_append]
  have h := count_aWords_1001
  rw [count_tokens] at h
  rw [h]

theorem c2_splitParas : splitParas c2FailingInput = [aWords 1001, [' '], aWords 1001] := by
  obtain ⟨t, ht⟩ := aWords_1001_cons
  have hnl : '\n' ∉ aWords 1001 := aWords_no_nl 1001
  rw [splitParas, c2FailingInput]
  rw [show (aWords 1001 ++ '\n' :: '\n' :: ' ' :: '\n' :: '\n' :: aWords 1001 : List Char) =
    aWords 1001 ++ '\n' :: '\n' :: (' ' :: '\n' :: '\n' :: aWords 1001) from rfl]
  rw [splitParasAux_append_pp _ _ hnl []]
  rw [show ((' ' :: '\n' :: '\n' :: aWords 1001 : List Char).dropWhile (· = '\n')) =
    (' ' :: '\n' :: '\n' :: aWords 1001 : List Char) from by
      rw [List.dropWhile_cons_of_neg (by decide)]]
  rw [spa_cons ' ' _ [] (by intro r2 h1 _; exact absurd h1 (by decide))]
  rw [spa_pp]
  rw [show ((aWords 1001).dropWhile (· = '\n')) = aWords 1001 from by
    rw [ht, List.dropWhile_cons_of_neg (by decide)]]
  rw [splitParasAux_no_nl _ hnl]
  simp

theorem c2_sbp : split_by_paragraphs c2FailingInput MAX_CHUNK_TOKENS =
    [aWords 1001, [' '], aWords 1001] := by
  rw [split_by_paragraphs, c2_splitParas]
  rw [sbpAux]
  rw [show (decide (0 + count_tokens (aWords 1001) > MAX_CHUNK_TOKENS) &&
    !(([] : List (List Char)).isEmpty)) = false by simp]
  simp only [Bool.false_eq_true, if_false]
  rw [sbpAux]
  rw [show (decide (0 + count_tokens (aWords 1001) + count_tokens [' '] > MAX_CHUNK_TOKENS) &&
    !(([aWords 1001] : List (List Char)).isEmpty)) = true by
      rw [count_aWords_1001, show count_tokens [' '] = 0 from rfl]
      rw [MAX_CHUNK_TOKENS]
      simp]
  simp only [if_true]
  rw [sbpAux]
  rw [show (decide (count_tokens [' '] + count_tokens (aWords 1001) > MAX_CHUNK_TOKENS) &&
    !(([[' ']] : List (List Char)).isEmpty)) = true by
      rw [count_aWords_1001, show count_tokens [' '] = 0 from rfl]
      rw [MAX_CHUNK_TOKENS]
      simp]
  simp only [if_true]
  rw [sbpAux]
  simp only [List.isEmpty_cons, Bool.false_eq_true, if_false]
  simp [joinPP_single]

/-- C2 (code bug): on an oversized headingless section whose middle paragraph
is whitespace-only, finalization assigns `enumerate` indices before dropping
the empty chunk, so the returned chunk indices are `[0, 2]` — not contiguous
and not the `[0, 1]` the spec's "drop empty results, assign zero-based
contiguous indices" requires. -/
theorem C2_code_bug_eval :
    (chunk_article c2FailingInput).map (fun c => c.chunk_index) = [0, 2] := by
  obtain ⟨t, ht⟩ := aWords_1001_cons
  rw [chunk_article, c2_split_headings]
  rw [show (([⟨none, c2FailingInput⟩] : List PSection).isEmpty) = false from rfl]
  simp only [Bool.false_eq_true, if_false]
  rw [show merge_small_sections [⟨none, c2FailingInput⟩] MERGE_THRESHOLD_TOKENS =
    [⟨none, c2FailingInput⟩] from rfl]
  rw [List.flatMap_cons, List.flatMap_nil]
  rw [if_pos (show count_tokens (⟨none, c2FailingInput⟩ : PSection).text >
      MAX_CHUNK_TOKENS by
    show count_tokens c2FailingInput > MAX_CHUNK_TOKENS
    rw [c2_count, MAX_CHUNK_TOKENS]
    omega)]
  rw [show split_by_paragraphs (⟨none, c2FailingInput⟩ : PSection).text
      MAX_CHUNK_TOKENS = [aWords 1001, [' '], aWords 1001] from c2_sbp]
  rw [List.map_cons, List.map_cons, List.map_cons, List.map_nil, List.append_nil]
  rw [List.enum]
  rw [show (List.enumFrom 0 [(⟨none, aWords 1001⟩ : PSection), ⟨none, [' ']⟩,
      ⟨none, aWords 1001⟩]) =
    [(0, ⟨none, aWords 1001⟩), (1, ⟨none, [' ']⟩), (2, ⟨none, aWords 1001⟩)] from rfl]
  rw [List.filterMap_cons, List.filterMap_cons, List.filterMap_cons,
    List.filterMap_nil]
  simp only
  rw [stripC_aWords_1001]
  rw [show ((aWords 1001).isEmpty) = false from by rw [ht]; rfl]
  rw [show (stripC [' ']) = ([] : List Char) from rfl]
  simp

/-! ## Document aggregation (C5) -/

theorem addToMap_lookup (m : List (Int × List (List ℚ) × List ChunkEmb))
    (c : ChunkEmb) (aid : Int) :
    List.lookup aid (addChunkToMap m c) =
      if aid = c.article_id then
        some (match List.lookup aid m with
          | none => ([c.embedding], [c])
          | some (es, chs) => (es ++ [c.embedding], chs ++ [c]))
      else List.lookup aid m := by
  induction m with
  | nil =>
    by_cases h : aid = c.article_id
    · subst h
      simp [addChunkToMap, List.lookup, _parse_embedding]
    · rw [if_neg h]
      simp only [addChunkToMap, List.lookup]
      rw [show (aid == c.article_id) = false by simpa using h]
  | cons g rest ih =>
    obtain ⟨k, es, chs⟩ := g
    rw [addChunkToMap]
    by_cases hk : k = c.article_id
    · subst hk
      rw [if_pos rfl]
      by_cases ha : aid = c.article_id
      · subst ha
        simp [List.lookup, _parse_embedding]
      · rw [if_neg ha]
        have hb : (aid == c.article_id) = false := by simpa using ha
        simp [List.lookup, hb]
    · rw [if_neg hk]
      by_cases hak : aid = k
      · subst hak
        rw [if_neg hk]
        simp [List.lookup]
      · have hb : (aid == k) = false := by simpa using hak
        simp [List.lookup, hb, ih]

theorem ownedChunks_cons (c : ChunkEmb) (rest : List ChunkEmb) (aid : Int) :
    ownedChunks (c :: rest) aid =
      if c.article_id = aid then c :: ownedChunks rest aid
      else ownedChunks rest aid := by
  rw [ownedChunks, List.filter_cons]
  by_cases h : c.article_id = aid
  · simp [h, ownedChunks]
  · simp [h, ownedChunks]

theorem group_lookup (chunks : List ChunkEmb) : ∀ (m : List (Int × List (List ℚ) × List ChunkEmb)) (aid : Int),
    List.lookup aid (chunks.foldl addChunkToMap m) =
      if (ownedChunks chunks aid).isEmpty then List.lookup aid m
      else some (match List.lookup aid m with
        | none => ((ownedChunks chunks aid).map (fun c => c.embedding),
            ownedChunks chunks aid)
        | some (es, chs) =>
            (es ++ (ownedChunks chunks aid).map (fun c => c.embedding),
              chs ++ ownedChunks chunks aid)) := by
  induction chunks with
  | nil =>
    intro m aid
    simp [ownedChunks, List.foldl_nil]
  | cons c rest ih =>
    intro m aid
    rw [List.foldl_cons, ih (addChunkToMap m c) aid, ownedChunks_cons]
    by_cases hc : c.article_id = aid
    · rw [if_pos hc]
      rw [addToMap_lookup m c aid, if_pos hc.symm]
      by_cases hrest : (ownedChunks rest aid).isEmpty
      · rw [List.isEmpty_iff] at hrest
        simp only [hrest]
        simp only [List.isEmpty_cons, Bool.false_eq_true, if_false,
          List.isEmpty_nil, if_true]
        cases hm : List.lookup aid m with
        | none => simp
        | some v =>
          obtain ⟨es, chs⟩ := v
          simp
      · simp only [List.isEmpty_cons, Bool.false_eq_true, if_false, hrest]
        cases hm : List.lookup aid m with
        | none => simp
        | some v =>
          obtain ⟨es, chs⟩ := v
          simp
    · rw [if_neg hc]
      rw [addToMap_lookup m c aid]
      rw [if_neg (show ¬ (aid = c.article_id) by intro h2; exact hc h2.symm)]

theorem lookup_map_val (l : List (Int × List (List ℚ) × List ChunkEmb))
    (f : Int → List (List ℚ) × List ChunkEmb → List ℚ × List ChunkEmb) (aid : Int) :
    List.lookup aid (l.map fun g => (g.1, f g.1 g.2)) =
      (List.lookup aid l).map (f aid) := by
  induction l with
  | nil => rfl
  | cons g rest ih =>
    obtain ⟨k, v⟩ := g
    by_cases hk : aid = k
    · subst hk
      simp [List.lookup]
    · have hb : (aid == k) = false := by simpa using hk
      simp [List.lookup, hb, ih]

theorem compute_article_embeddings_lookup (chunks : List ChunkEmb) (aid : Int) :
    List.lookup aid (compute_article_embeddings chunks) =
      if (ownedChunks chunks aid).isEmpty then none
      else some (npMean ((ownedChunks chunks aid).map fun c => c.embedding),
        ownedChunks chunks aid) := by
  rw [compute_article_embeddings]
  rw [show (chunks.foldl addChunkToMap []).map
      (fun g => (g.1, npMean g.2.1, g.2.2)) =
    (chunks.foldl addChunkToMap []).map
      (fun g => (g.1, (fun (k : Int) (v : List (List ℚ) × List ChunkEmb) =>
        (npMean v.1, v.2)) g.1 g.2)) from rfl]
  rw [lookup_map_val (chunks.foldl addChunkToMap [])
    (fun k v => (npMean v.1, v.2)) aid, group_lookup chunks [] aid]
  by_cases h : (ownedChunks chunks aid).isEmpty
  · rw [if_pos h, if_pos h]
    rfl
  · rw [if_neg h, if_neg h]
    rfl

theorem foldl_addVec_getD (rest : List (List ℚ)) : ∀ (v : List ℚ) (i : Nat),
    (∀ u ∈ v :: rest, i < u.length) →
    (rest.foldl addVec v).getD i 0 = ((v :: rest).map fun u => u.getD i 0).sum := by
  induction rest with
  | nil =>
    intro v i _
    simp
  | cons u rest ih =>
    intro v i hlen
    rw [List.foldl_cons]
    have hv : i < v.length := hlen v (List.mem_cons_self ..)
    have hu : i < u.length := hlen u (by simp)
    have haddlen : i < (addVec v u).length := by
      rw [addVec, List.length_zipWith]
      omega
    have hadd : (addVec v u).getD i 0 = v.getD i 0 + u.getD i 0 := by
      simp only [addVec] at haddlen ⊢
      rw [List.getD_eq_getElem _ _ haddlen, List.getD_eq_getElem _ _ hv,
        List.getD_eq_getElem _ _ hu, List.getElem_zipWith]
    rw [ih (addVec v u) i (by
      intro w hw
      rcases List.mem_cons.mp hw with h1 | h2
      · rw [h1]
        exact haddlen
      · exact hlen w (by simp [h2]))]
    simp only [List.map_cons, List.sum_cons]
    rw [hadd]
    ring

theorem foldl_addVec_length (rest : List (List ℚ)) : ∀ (v : List ℚ),
    (∀ u ∈ rest, u.length = v.length) →
    (rest.foldl addVec v).length = v.length := by
  induction rest with
  | nil => intro v _; rfl
  | cons u rest ih =>
    intro v hlen
    rw [List.foldl_cons]
    have hu : u.length = v.length := hlen u (List.mem_cons_self ..)
    have haddlen : (addVec v u).length = v.length := by
      rw [addVec, List.length_zipWith]
      omega
    rw [ih (addVec v u) ?_, haddlen]
    intro w hw
    rw [hlen w (by simp [hw]), haddlen]

theorem npMean_length (vs : List (List ℚ)) (d : Nat) (hne : vs ≠ [])
    (hdim : ∀ v ∈ vs, v.length = d) : (npMean vs).length = d := by
  cases vs with
  | nil => exact absurd rfl hne
  | cons v rest =>
    rw [npMean, List.length_map]
    rw [foldl_addVec_length rest v ?_]
    · exact hdim v (List.mem_cons_self ..)
    · intro u hu
      rw [hdim u (by simp [hu]), hdim v (List.mem_cons_self ..)]

theorem npMean_getD (vs : List (List ℚ)) (d : Nat) (hne : vs ≠ [])
    (hdim : ∀ v ∈ vs, v.length = d) (i : Nat) (hi : i < d) :
    (npMean vs).getD i 0 = ((vs.map fun u => u.getD i 0).sum) / (vs.length : ℚ) := by
  cases vs with
  | nil => exact absurd rfl hne
  | cons v rest =>
    rw [npMean]
    have hflen : (rest.foldl addVec v).length = d := by
      rw [foldl_addVec_length rest v ?_]
      · exact hdim v (List.mem_cons_self ..)
      · intro u hu
        rw [hdim u (by simp [hu]), hdim v (List.mem_cons_self ..)]
    have hfi : i < (rest.foldl addVec v).length := by omega
    rw [List.getD_eq_getElem _ _ (by simpa using hfi), List.getElem_map]
    rw [← List.getD_eq_getElem _ 0 hfi]
    rw [foldl_addVec_getD rest v i (by
      intro u hu
      rw [hdim u hu]
      exact hi)]

theorem ownedChunks_empty_iff (chunks : List ChunkEmb) (aid : Int) :
    (ownedChunks chunks aid).isEmpty = true ↔
      aid ∉ chunks.map (fun c => c.article_id) := by
  rw [ownedChunks, List.isEmpty_iff, List.filter_eq_nil_iff]
  constructor
  · intro h hmem
    rw [List.mem_map] at hmem
    obtain ⟨c, hc, hceq⟩ := hmem
    exact absurd (by simpa using hceq) (by simpa using h c hc)
  · intro h c hc
    simp only [decide_eq_true_eq]
    intro hceq
    exact h (List.mem_map.mpr ⟨c, hc, by simpa using hceq⟩)

/-- C5: `compute_article_embeddings` keys are exactly the article ids owning
at least one chunk, and each returned embedding is the exact componentwise
arithmetic mean of that article's chunk embedding vectors (in the rational
model of the store's float vectors). -/
theorem C5_mean_embeddings (chunks : List ChunkEmb) (aid : Int) (d : Nat)
    (hdim : ∀ c ∈ chunks, c.embedding.length = d) :
    ((List.lookup aid (compute_article_embeddings chunks)).isSome ↔
      aid ∈ chunks.map fun c => c.article_id) ∧
    (∀ emb chs,
      List.lookup aid (compute_article_embeddings chunks) = some (emb, chs) →
        chs = ownedChunks chunks aid ∧ emb.length = d ∧
        ∀ i, i < d → emb.getD i 0 =
          ((ownedChunks chunks aid).map fun c => c.embedding.getD i 0).sum /
            ((ownedChunks chunks aid).length : ℚ)) := by
  have hlookup := compute_article_embeddings_lookup chunks aid
  have howned : ∀ v ∈ (ownedChunks chunks aid).map (fun c => c.embedding),
      v.length = d := by
    intro v hv
    rw [List.mem_map] at hv
    obtain ⟨c, hc, hceq⟩ := hv
    rw [← hceq]
    exact hdim c (List.mem_filter.mp hc).1
  constructor
  · rw [hlookup]
    by_cases h : (ownedChunks chunks aid).isEmpty
    · rw [if_pos h]
      simp only [Option.isSome_none, Bool.false_eq_true, false_iff]
      exact (ownedChunks_empty_iff chunks aid).mp h
    · rw [if_neg h]
      simp only [Option.isSome_some, true_iff]
      by_contra hmem
      exact h ((ownedChunks_empty_iff chunks aid).mpr hmem)
  · intro emb chs hsome
    rw [hlookup] at hsome
    by_cases h : (ownedChunks chunks aid).isEmpty
    · rw [if_pos h] at hsome
      exact absurd hsome (by simp)
    · rw [if_neg h] at hsome
      simp only [Option.some_inj, Prod.mk.injEq] at hsome
      have hne : (ownedChunks chunks aid).map (fun c => c.embedding) ≠ [] := by
        intro hnil
        rw [List.map_eq_nil_iff] at hnil
        rw [← List.isEmpty_iff] at hnil
        exact h hnil
      refine ⟨hsome.2.symm, ?_, ?_⟩
      · rw [← hsome.1]
        exact npMean_length _ d hne howned
      · intro i hi
        rw [← hsome.1, npMean_getD _ d hne howned i hi, List.map_map,
          List.length_map]
        rfl

/-- C5 witness: two chunks of one article; the mean of [1,3] and [3,5] is
[2,4], checked through the theorem at a concrete input. -/
theorem C5_mean_embeddings_witness :
    ((List.lookup 1 (compute_article_embeddings
        [⟨1, [(1 : ℚ), 3]⟩, ⟨1, [3, 5]⟩])).isSome ↔
      (1 : Int) ∈ ([⟨1, [(1 : ℚ), 3]⟩, ⟨1, [3, 5]⟩] : List ChunkEmb).map
        fun c => c.article_id) ∧
    (∀ emb chs,
      List.lookup 1 (compute_article_embeddings
          [⟨1, [(1 : ℚ), 3]⟩, ⟨1, [3, 5]⟩]) = some (emb, chs) →
        chs = ownedChunks [⟨1, [(1 : ℚ), 3]⟩, ⟨1, [3, 5]⟩] 1 ∧ emb.length = 2 ∧
        ∀ i, i < 2 → emb.getD i 0 =
          ((ownedChunks [⟨1, [(1 : ℚ), 3]⟩, ⟨1, [3, 5]⟩] 1).map
            fun c => c.embedding.getD i 0).sum /
            ((ownedChunks [⟨1, [(1 : ℚ), 3]⟩, ⟨1, [3, 5]⟩] 1).length : ℚ)) :=
  C5_mean_embeddings [⟨1, [(1 : ℚ), 3]⟩, ⟨1, [3, 5]⟩] 1 2 (by decide)

/-! ## Cluster engine (C6, C7) -/

theorem enumFrom_fst_lt (l : List (List ℚ)) :
    ∀ n p, p ∈ l.enumFrom n → p.1 < n + l.length := by
  induction l with
  | nil => intro n p hp; simp [List.enumFrom] at hp
  | cons x rest ih =>
    intro n p hp
    rcases List.mem_cons.mp hp with h1 | h2
    · rw [h1]
      simp
    · have := ih (n + 1) p h2
      simp only [List.length_cons]
      omega

theorem nearestIdx_lt (cents : List (List ℚ)) (x : List ℚ) (h : cents ≠ []) :
    nearestIdx cents x < cents.length := by
  cases cents with
  | nil => exact absurd rfl h
  | cons c rest =>
    rw [nearestIdx]
    have hfold : ∀ (l : List (Nat × List ℚ)) (best : Nat × ℚ),
        best.1 < (c :: rest).length →
        (∀ p ∈ l, p.1 + 1 < (c :: rest).length) →
        (l.foldl (fun best p =>
          let d := sqDist p.2 x
          if d < best.2 then (p.1 + 1, d) else best) best).1 <
          (c :: rest).length := by
      intro l
      induction l with
      | nil => intro best hb _; exact hb
      | cons p ps ihp =>
        intro best hb hall
        rw [List.foldl_cons]
        refine ihp _ ?_ (fun q hq => hall q (by simp [hq]))
        by_cases hd : sqDist p.2 x < best.2
        · simp only [hd, if_pos]
          exact hall p (List.mem_cons_self ..)
        · simpa [hd] using hb
    refine hfold (rest.enum) (0, sqDist c x) (by simp) ?_
    intro p hp
    have := enumFrom_fst_lt rest 0 p hp
    simp only [List.length_cons]
    omega

theorem assignStep_lt (cents : List (List ℚ)) (pts : List (List ℚ))
    (h : cents ≠ []) : ∀ lab ∈ assignStep cents pts, lab < cents.length := by
  intro lab hlab
  rw [assignStep, List.mem_map] at hlab
  obtain ⟨x, _, hx⟩ := hlab
  rw [← hx]
  exact nearestIdx_lt cents x h

theorem assignStep_length (cents pts : List (List ℚ)) :
    (assignStep cents pts).length = pts.length := by
  simp [assignStep]

theorem updateStep_length (pts : List (List ℚ)) (labels : List Nat)
    (cents : List (List ℚ)) :
    (updateStep pts labels cents).length = cents.length := by
  simp [updateStep]

theorem lloyd_shape (pts : List (List ℚ)) :
    ∀ fuel cents, ∃ cs : List (List ℚ),
      cs.length = cents.length ∧
      (lloyd fuel cents pts).1 = assignStep cs pts ∧
      (lloyd fuel cents pts).2.length = cents.length := by
  intro fuel
  induction fuel with
  | zero =>
    intro cents
    exact ⟨cents, rfl, rfl, rfl⟩
  | succ f ih =>
    intro cents
    rw [lloyd]
    by_cases hst : assignStep (updateStep pts (assignStep cents pts) cents) pts =
        assignStep cents pts
    · rw [if_pos hst]
      exact ⟨cents, rfl, rfl, by simp [updateStep_length]⟩
    · rw [if_neg hst]
      obtain ⟨cs, hlen, h1, h2⟩ := ih (updateStep pts (assignStep cents pts) cents)
      exact ⟨cs, by rw [hlen, updateStep_length], h1,
        by rw [h2, updateStep_length]⟩

/-- C6: for a nonempty embedding map and `1 ≤ k ≤` the number of documents,
`cluster_articles` succeeds, assigns a label to exactly the input document
ids (same ids, same multiplicities, same order), every label lies in
`[0, k)`, and there are `k` centroids. -/
theorem C6_cluster_assignment (m : List (Int × List ℚ)) (k : Nat)
    (h1 : 1 ≤ k) (h2 : k ≤ m.length) :
    ∃ asg cents ids, cluster_articles m k = Except.ok (asg, cents, ids) ∧
      asg.map Prod.fst = m.map Prod.fst ∧
      (∀ p ∈ asg, p.2 < k) ∧
      cents.length = k := by
  rw [cluster_articles]
  have hX : (m.map Prod.snd).length = m.length := by simp
  have hcond : (decide (k = 0) || decide ((m.map Prod.snd).length < k)) = false := by
    simp only [Bool.or_eq_false_iff, decide_eq_false_iff_not]
    omega
  rw [hcond]
  simp only [Bool.false_eq_true, if_false]
  obtain ⟨cs, hlen, hlab, hclen⟩ := lloyd_shape (m.map Prod.snd) 300
    ((m.map Prod.snd).take k)
  have htake : ((m.map Prod.snd).take k).length = k := by
    rw [List.length_take]
    omega
  refine ⟨_, _, _, rfl, ?_, ?_, ?_⟩
  · rw [List.map_fst_zip]
    rw [hlab, assignStep_length]
    simp
  · intro p hp
    have hmem := List.of_mem_zip hp
    have hne : cs ≠ [] := by
      intro hnil
      rw [hnil] at hlen
      simp only [List.length_nil] at hlen
      omega
    have := assignStep_lt cs (m.map Prod.snd) hne p.2 (by rw [← hlab]; exact hmem.2)
    omega
  · rw [hclen, htake]

/-- C6 witness: two documents, two clusters, at a concrete input. -/
theorem C6_cluster_assignment_witness :
    ∃ asg cents ids,
      cluster_articles [((1 : Int), [(0 : ℚ)]), (2, [1])] 2 =
        Except.ok (asg, cents, ids) ∧
      asg.map Prod.fst =
        ([((1 : Int), [(0 : ℚ)]), (2, [1])]).map Prod.fst ∧
      (∀ p ∈ asg, p.2 < 2) ∧
      cents.length = 2 :=
  C6_cluster_assignment [((1 : Int), [(0 : ℚ)]), (2, [1])] 2 (by decide) (by decide)

/-- C7: requesting more clusters than there are documents is reported as a
configuration error (no centroid computation happens, no truncation). -/
theorem C7_k_too_large_error (m : List (Int × List ℚ)) (k : Nat)
    (h : m.length < k) :
    cluster_articles m k =
      Except.error "n_clusters must be between 1 and the number of documents" := by
  rw [cluster_articles]
  have hcond : (decide (k = 0) || decide ((m.map Prod.snd).length < k)) = true := by
    simp only [Bool.or_eq_true, decide_eq_true_eq]
    right
    simpa using h
  rw [hcond]
  simp

/-- C7 witness: one document, two requested clusters. -/
theorem C7_k_too_large_error_witness :
    cluster_articles [((1 : Int), [(0 : ℚ)])] 2 =
      Except.error "n_clusters must be between 1 and the number of documents" :=
  C7_k_too_large_error [((1 : Int), [(0 : ℚ)])] 2 (by decide)

/-! ## Response parsing (C8) -/

theorem lookup_append_lg (k : Int) (l1 l2 : List (Int × LabelGaps)) :
    List.lookup k (l1 ++ l2) = (List.lookup k l1).or (List.lookup k l2) := by
  induction l1 with
  | nil => simp [List.lookup]
  | cons g rest ih =>
    obtain ⟨k2, v⟩ := g
    by_cases hk : k = k2
    · subst hk
      simp [List.lookup]
    · have hb : (k == k2) = false := by simpa using hk
      simp [List.lookup, hb, ih]

theorem fill_mono (ids : List Int) :
    ∀ (m : List (Int × LabelGaps)) (cid : Int),
      (List.lookup cid m).isSome →
      List.lookup cid (ids.foldl
        (fun m cid =>
          if (m.lookup cid).isSome then m else m ++ [(cid, placeholderLG cid)]) m) =
        List.lookup cid m := by
  induction ids with
  | nil => intro m cid _; rfl
  | cons c ids ih =>
    intro m cid hsome
    rw [List.foldl_cons]
    by_cases hc : (m.lookup c).isSome
    · rw [if_pos hc]
      exact ih m cid hsome
    · rw [if_neg hc]
      rw [ih _ cid ?_, lookup_append_lg]
      · obtain ⟨v, hv⟩ := Option.isSome_iff_exists.mp hsome
        rw [hv]
        rfl
      · rw [lookup_append_lg]
        obtain ⟨v, hv⟩ := Option.isSome_iff_exists.mp hsome
        rw [hv]
        simp

theorem fill_total (ids : List Int) :
    ∀ (m : List (Int × LabelGaps)) (cid : Int), cid ∈ ids →
      ∃ v, List.lookup cid (ids.foldl
        (fun m cid =>
          if (m.lookup cid).isSome then m else m ++ [(cid, placeholderLG cid)]) m) =
          some v ∧
        (List.lookup cid m = none → v = placeholderLG cid) := by
  induction ids with
  | nil => intro m cid hcid; simp at hcid
  | cons c ids ih =>
    intro m cid hcid
    rw [List.foldl_cons]
    by_cases heq : cid = c
    · subst heq
      by_cases hc : (m.lookup cid).isSome
      · rw [if_pos hc]
        obtain ⟨v, hv⟩ := Option.isSome_iff_exists.mp hc
        refine ⟨v, ?_, ?_⟩
        · rw [fill_mono ids m cid hc, hv]
        · intro hnone
          rw [hnone] at hv
          exact absurd hv (by simp)
      · rw [if_neg hc]
        have hlook : List.lookup cid (m ++ [(cid, placeholderLG cid)]) =
            some (placeholderLG cid) := by
          rw [lookup_append_lg]
          rw [Option.not_isSome_iff_eq_none] at hc
          rw [hc]
          simp [List.lookup]
        refine ⟨placeholderLG cid, ?_, fun _ => rfl⟩
        rw [fill_mono ids _ cid (by rw [hlook]; rfl), hlook]
    · by_cases hc : (m.lookup c).isSome
      · rw [if_pos hc]
        exact ih m cid ((List.mem_cons.mp hcid).resolve_left heq)
      · rw [if_neg hc]
        obtain ⟨v, hv, hph⟩ := ih (m ++ [(c, placeholderLG c)]) cid
          ((List.mem_cons.mp hcid).resolve_left heq)
        refine ⟨v, hv, ?_⟩
        intro hnone
        refine hph ?_
        rw [lookup_append_lg, hnone]
        have hb : (cid == c) = false := by simpa using heq
        simp [List.lookup, hb]

/-- C8: `_parse_cluster_response` returns an entry for every requested
cluster id; an id with no (parseable) block in the response receives the
placeholder label `Topic {cid}` and an empty gap list rather than failing. -/
theorem C8_parse_response_total (text : List Char) (cluster_ids : List Int)
    (cid : Int) (hcid : cid ∈ cluster_ids) :
    ∃ v, List.lookup cid (_parse_cluster_response text cluster_ids) = some v ∧
      (List.lookup cid
          ((splitOnChar '\n' text).foldl parseLineStep ([], none)).1 = none →
        v = placeholderLG cid) := by
  rw [_parse_cluster_response]
  exact fill_total cluster_ids _ cid hcid

/-- C8 witness: a response that mentions only cluster 0, queried for ids 0
and 7: id 7 gets the placeholder. -/
theorem C8_parse_response_total_witness :
    ∃ v, List.lookup 7 (_parse_cluster_response
        ('C' :: 'L' :: 'U' :: 'S' :: 'T' :: 'E' :: 'R' :: ' ' :: '0' :: [])
        [0, 7]) = some v ∧
      (List.lookup 7 ((splitOnChar '\n'
          ('C' :: 'L' :: 'U' :: 'S' :: 'T' :: 'E' :: 'R' :: ' ' :: '0' :: [])).foldl
          parseLineStep ([], none)).1 = none →
        v = placeholderLG 7) :=
  C8_parse_response_total _ [0, 7] 7 (by decide)

/-! ## Retrieval contract (C9) -/

theorem chunkLe_trans (a b c : SChunk) (hab : chunkLe a b = true)
    (hbc : chunkLe b c = true) : chunkLe a c = true := by
  simp only [chunkLe, decide_eq_true_eq] at *
  rcases hab with h1 | ⟨hs1, h1⟩
  · rcases hbc with h2 | ⟨hs2, h2⟩
    · exact Or.inl (lt_trans h2 h1)
    · exact Or.inl (hs2 ▸ h1)
  · rcases hbc with h2 | ⟨hs2, h2⟩
    · exact Or.inl (by rw [hs1]; exact h2)
    · refine Or.inr ⟨hs1.trans hs2, ?_⟩
      rcases h1 with h1 | ⟨hi1, h1⟩
      · rcases h2 with h2 | ⟨hi2, h2⟩
        · exact Or.inl (lt_trans h1 h2)
        · exact Or.inl (hi2 ▸ h1)
      · rcases h2 with h2 | ⟨hi2, h2⟩
        · exact Or.inl (by rw [hi1]; exact h2)
        · exact Or.inr ⟨hi1.trans hi2, h1.trans h2⟩

theorem chunkLe_total (a b : SChunk) : (chunkLe a b || chunkLe b a) = true := by
  simp only [chunkLe, Bool.or_eq_true, decide_eq_true_eq]
  rcases lt_trichotomy a.similarity b.similarity with hs | hs | hs
  · exact Or.inr (Or.inl hs)
  · rcases lt_trichotomy a.article_id b.article_id with hi | hi | hi
    · exact Or.inl (Or.inr ⟨hs, Or.inl hi⟩)
    · rcases Nat.le_total a.chunk_index b.chunk_index with hx | hx
      · exact Or.inl (Or.inr ⟨hs, Or.inr ⟨hi, hx⟩⟩)
      · exact Or.inr (Or.inr ⟨hs.symm, Or.inr ⟨hi.symm, hx⟩⟩)
    · exact Or.inr (Or.inr ⟨hs.symm, Or.inl hi⟩)
  · exact Or.inl (Or.inl hs)

theorem chunkLe_sim (a b : SChunk) (h : chunkLe a b = true) :
    b.similarity ≤ a.similarity := by
  simp only [chunkLe, decide_eq_true_eq] at h
  rcases h with h | ⟨hs, _⟩
  · exact le_of_lt h
  · exact le_of_eq hs.symm

/-- C9: retrieval results are truncated to `match_count`, sorted by
non-increasing similarity, meet the similarity threshold, and exclude the
excluded article's chunks. -/
theorem C9_retrieval_contract (candidates : List SChunk) (match_count : Nat)
    (similarity_threshold : ℚ) (exclude_article_id : Option Int) :
    (find_similar_chunks candidates match_count similarity_threshold
        exclude_article_id).length ≤ match_count ∧
    List.Pairwise (fun a b => b.similarity ≤ a.similarity)
      (find_similar_chunks candidates match_count similarity_threshold
        exclude_article_id) ∧
    ∀ c ∈ find_similar_chunks candidates match_count similarity_threshold
        exclude_article_id,
      similarity_threshold ≤ c.similarity ∧
      ∀ e, exclude_article_id = some e → c.article_id ≠ e := by
  rw [find_similar_chunks, match_chunks]
  refine ⟨?_, ?_, ?_⟩
  · exact List.length_take_le match_count _
  · have hsorted := @List.sorted_mergeSort _ chunkLe
      (fun a b c => chunkLe_trans a b c) chunkLe_total
      (candidates.filter fun c =>
        (match exclude_article_id with
         | some e => decide (c.article_id ≠ e)
         | none => true) && decide (similarity_threshold ≤ c.similarity))
    have hpw : List.Pairwise (fun a b => b.similarity ≤ a.similarity)
        ((candidates.filter fun c =>
          (match exclude_article_id with
           | some e => decide (c.article_id ≠ e)
           | none => true) && decide (similarity_threshold ≤ c.similarity)).mergeSort
          chunkLe) :=
      hsorted.imp fun h => chunkLe_sim _ _ h
    exact hpw.sublist (List.take_sublist match_count _)
  · intro c hc
    have hc2 : c ∈ (candidates.filter fun c =>
        (match exclude_article_id with
         | some e => decide (c.article_id ≠ e)
         | none => true) && decide (similarity_threshold ≤ c.similarity)) := by
      rw [← @List.mem_mergeSort _ chunkLe c _]
      exact List.mem_of_mem_take hc
    rw [List.mem_filter, Bool.and_eq_true] at hc2
    refine ⟨by simpa using hc2.2.2, ?_⟩
    intro e he
    rw [he] at hc2
    simpa using hc2.2.1
